import Mathlib

/-!
# Verification of the TikzJax rendering orchestration pipeline

This file is a shallow embedding, in Lean 4, of the rendering pipeline of
`src/index.js` (the page-side orchestrator plus the two `run-tex` worker
variants).  JavaScript strings are modelled as `List Char` (one entry per
Unicode code point, matching `for..of` iteration), machine integers as `Nat`
with explicit `% 2 ^ w` reductions, fallible operations as `Option`/`Except`,
and the asynchronous batch queue as an explicit small-step transition system.

Each definition is translated from the source; doc comments cite the
function it embeds.  Functions whose JavaScript original re-scans a shrinking
string use an explicit fuel argument (initialised with the string length) so
that they stay structurally recursive and kernel-computable.
-/

set_option maxRecDepth 10000

namespace TikzJax

/-! ## Basic character classes and string utilities -/

/-- JavaScript word characters, the `\w` / `\b` class: `[A-Za-z0-9_]`. -/
def isWordChar (c : Char) : Bool :=
  ('A' ≤ c && c ≤ 'Z') || ('a' ≤ c && c ≤ 'z') || ('0' ≤ c && c ≤ '9') || c = '_'

/-- Lowercase hexadecimal digits `[0-9a-f]`, the alphabet of the hex digests
produced by `createHash`. -/
def isHexLower (c : Char) : Bool :=
  ('0' ≤ c && c ≤ '9') || ('a' ≤ c && c ≤ 'f')

/-- Hexadecimal digits of either case, `[0-9A-Fa-f]`. -/
def isHexDigitCI (c : Char) : Bool :=
  ('0' ≤ c && c ≤ '9') || ('a' ≤ c && c ≤ 'f') || ('A' ≤ c && c ≤ 'F')

/-- ASCII lower-casing, as applied by `toLowerCase()` to the ASCII characters
that all the regex literals of the source consist of. -/
def toLowerAscii (c : Char) : Char :=
  if 'A' ≤ c && c ≤ 'Z' then Char.ofNat (c.toNat + 32) else c

/-- ASCII upper-casing, as applied by `toUpperCase()` to ASCII characters. -/
def toUpperAscii (c : Char) : Char :=
  if 'a' ≤ c && c ≤ 'z' then Char.ofNat (c.toNat - 32) else c

/-- The whitespace class of JavaScript's `String.prototype.trim`. -/
def isJsWhite (c : Char) : Bool :=
  c = ' ' || c = '\t' || c = '\n' || c = '\r' ||
  c.toNat = 0x0b || c.toNat = 0x0c || c.toNat = 0xa0 || c.toNat = 0x1680 ||
  (0x2000 ≤ c.toNat && c.toNat ≤ 0x200a) ||
  c.toNat = 0x2028 || c.toNat = 0x2029 || c.toNat = 0x202f ||
  c.toNat = 0x205f || c.toNat = 0x3000 || c.toNat = 0xfeff

/-- `String.prototype.trim`: strip leading and trailing whitespace. -/
def jsTrim (s : List Char) : List Char :=
  ((s.dropWhile isJsWhite).reverse.dropWhile isJsWhite).reverse

/-- `String.prototype.split(sep)` for a one-character separator.
`splitOnChar sep s` never returns `[]`; splitting the empty string yields
`[[]]`, and a trailing separator yields a trailing empty piece, exactly as in
JavaScript. -/
def splitOnChar (sep : Char) : List Char → List (List Char)
  | [] => [[]]
  | c :: rest =>
    if c = sep then [] :: splitOnChar sep rest
    else
      match splitOnChar sep rest with
      | [] => [[c]]
      | l :: ls => (c :: l) :: ls

/-- `Array.prototype.join` with a one-character separator. -/
def joinWithChar (sep : Char) (L : List (List Char)) : List Char :=
  List.intercalate [sep] L

/-- `String.prototype.replaceAll(pat, rep)` with a *literal* (non-pattern)
replacement string: replace every non-overlapping occurrence of `pat`, left to
right, never re-scanning replaced text.  The fuel argument keeps the recursion
structural; `replaceAll` instantiates it with the length of the subject, which
is always sufficient because each step consumes at least one character.
(`$`-escapes inside JavaScript replacement strings are not modelled; the
replacement strings built by the source are hash/id material.) -/
def replaceAllF (pat rep : List Char) : Nat → List Char → List Char
  | _, [] => []
  | 0, s => s
  | fuel + 1, c :: rest =>
    if pat ≠ [] ∧ pat.isPrefixOf (c :: rest) then
      rep ++ replaceAllF pat rep fuel (List.drop pat.length (c :: rest))
    else
      c :: replaceAllF pat rep fuel rest

/-- `s.replaceAll(pat, rep)`; see `replaceAllF`. -/
def replaceAll (s pat rep : List Char) : List Char :=
  replaceAllF pat rep s.length s

/-- Number of positions of `s` (including the final position) at which `pat`
occurs as a prefix of the corresponding suffix, i.e. the number of
(possibly overlapping) occurrences of `pat` in `s`. -/
def countOcc (pat : List Char) : List Char → Nat
  | [] => if pat = [] then 1 else 0
  | c :: rest => (if pat.isPrefixOf (c :: rest) then 1 else 0) + countOcc pat rest

/-- `padStart(len, c)`: left-pad a string to length `len` with `c`. -/
def padStart (len : Nat) (c : Char) (s : List Char) : List Char :=
  List.replicate (len - s.length) c ++ s

/-- `String.prototype.includes(pat)`: does `pat` occur as a contiguous
substring of `s`? -/
def jsIncludes (pat : List Char) : List Char → Bool
  | [] => pat.isEmpty
  | c :: rest => pat.isPrefixOf (c :: rest) || jsIncludes pat rest

/-! ### Elementary lemmas about the utilities -/

theorem splitOnChar_ne_nil (sep : Char) (s : List Char) : splitOnChar sep s ≠ [] := by
  cases s with
  | nil => simp [splitOnChar]
  | cons c rest =>
    simp only [splitOnChar]
    by_cases hc : c = sep
    · simp [hc]
    · rcases h : splitOnChar sep rest with _ | ⟨l, ls⟩ <;> simp [hc]

theorem splitOnChar_sepFree (sep : Char) (a : List Char) (ha : sep ∉ a) :
    splitOnChar sep a = [a] := by
  induction a with
  | nil => rfl
  | cons c cs ih =>
    have hc : c ≠ sep := fun h => ha (h ▸ List.mem_cons_self c cs)
    have hcs : sep ∉ cs := fun h => ha (List.mem_cons_of_mem c h)
    simp only [splitOnChar, if_neg hc, ih hcs]

theorem splitOnChar_append_sep (sep : Char) (a t : List Char) (ha : sep ∉ a) :
    splitOnChar sep (a ++ sep :: t) = a :: splitOnChar sep t := by
  induction a with
  | nil => simp [splitOnChar]
  | cons c cs ih =>
    have hc : c ≠ sep := fun h => ha (h ▸ List.mem_cons_self c cs)
    have hcs : sep ∉ cs := fun h => ha (List.mem_cons_of_mem c h)
    simp only [List.cons_append, splitOnChar, if_neg hc]
    rw [List.append_eq, ih hcs]

theorem mem_splitOnChar_not_sep (sep : Char) (s : List Char) :
    ∀ l ∈ splitOnChar sep s, sep ∉ l := by
  induction s with
  | nil => intro l hl; simp [splitOnChar] at hl; simp [hl]
  | cons c rest ih =>
    intro l hl
    simp only [splitOnChar] at hl
    by_cases hc : c = sep
    · rw [if_pos hc] at hl
      rcases List.mem_cons.mp hl with h1 | h1
      · simp [h1]
      · exact ih l h1
    · rw [if_neg hc] at hl
      rcases h : splitOnChar sep rest with _ | ⟨p, ps⟩
      · rw [h] at hl; simp at hl; subst hl
        simpa using Ne.symm hc
      · rw [h] at hl
        rcases List.mem_cons.mp hl with h1 | h1
        · subst h1
          intro hmem
          rcases List.mem_cons.mp hmem with h2 | h2
          · exact hc h2.symm
          · exact ih p (h ▸ List.mem_cons_self p ps) h2
        · exact ih l (h ▸ List.mem_cons_of_mem p h1)

theorem joinWithChar_cons_cons (sep : Char) (l m : List Char) (ms : List (List Char)) :
    joinWithChar sep (l :: m :: ms) = l ++ sep :: joinWithChar sep (m :: ms) := by
  simp [joinWithChar, List.intercalate, List.intersperse]

theorem joinWithChar_splitOnChar (sep : Char) (s : List Char) :
    joinWithChar sep (splitOnChar sep s) = s := by
  induction s with
  | nil => simp [splitOnChar, joinWithChar, List.intercalate]
  | cons c rest ih =>
    simp only [splitOnChar]
    by_cases hc : c = sep
    · rw [if_pos hc]
      rcases h : splitOnChar sep rest with _ | ⟨p, ps⟩
      · exact absurd h (splitOnChar_ne_nil sep rest)
      · rw [h] at ih
        rw [joinWithChar_cons_cons, ih, hc]
        simp
    · rw [if_neg hc]
      rcases h : splitOnChar sep rest with _ | ⟨p, ps⟩
      · exact absurd h (splitOnChar_ne_nil sep rest)
      · rw [h] at ih
        cases ps with
        | nil =>
          simp [joinWithChar, List.intercalate] at ih ⊢
          exact ih
        | cons q qs =>
          rw [joinWithChar_cons_cons] at ih ⊢
          simpa using ih

theorem splitOnChar_joinWithChar (sep : Char) (L : List (List Char)) (hne : L ≠ [])
    (hfree : ∀ l ∈ L, sep ∉ l) :
    splitOnChar sep (joinWithChar sep L) = L := by
  induction L with
  | nil => exact absurd rfl hne
  | cons l ls ih =>
    have hl : sep ∉ l := hfree l (List.mem_cons_self l ls)
    cases ls with
    | nil =>
      simp only [joinWithChar, List.intercalate, List.intersperse, List.flatten,
        List.append_nil]
      exact splitOnChar_sepFree sep l hl
    | cons m ms =>
      rw [joinWithChar_cons_cons, splitOnChar_append_sep sep l _ hl,
        ih (by simp) (fun x hx => hfree x (List.mem_cons_of_mem l hx))]

theorem replaceAllF_nil_fuel (pat rep : List Char) (s : List Char) :
    replaceAllF pat rep 0 s = s := by
  cases s <;> rfl

/-! ## C6: `texify` error path and engine filesystem reset

Model of the tail of `texify` in both worker variants (`run-tex` lines
388-424 and 685-724): after `library.executeAsync` the engine-internal
virtual filesystem holds the files that the run produced.  `texify` reads
`input.log`, then tries to read `input.dvi`; if that read throws it calls
`library.deleteEverything()` and rethrows an error carrying the log text,
otherwise it calls `library.deleteEverything()` and converts the dvi bytes to
markup.  `TextDecoder('utf-8').decode` and the `dvi2html` converter are
external collaborators and appear as function parameters. -/

/-- The engine-internal virtual filesystem: file name to byte contents. -/
abbrev EngineFS := List (String × List Nat)

/-- `library.readFileSync` (returns `none` where the JavaScript original
throws on a missing file). -/
def readFileSync (fs : EngineFS) (name : String) : Option (List Nat) :=
  (fs.find? (fun f => f.1 = name)).map (fun f => f.2)

/-- `library.deleteEverything()`: the engine filesystem with every file
deleted. -/
def deleteEverything : EngineFS := []

/-- The tail of `texify` after `library.executeAsync` has returned, from the
extraction of `input.log` up to the `dvi2html` conversion: result (markup or
thrown error) together with the engine filesystem as left behind by the call.
A missing `input.log` makes `readFileSync` itself throw, which the source
does not catch (that exception escapes with the filesystem untouched). -/
def texifyTail (fs : EngineFS) (decodeUtf8 : List Nat → String)
    (dvi2html : List Nat → String) : Except String String × EngineFS :=
  match readFileSync fs "input.log" with
  | none => (.error "readFileSync: input.log not found", fs)
  | some logBytes =>
    let log := decodeUtf8 logBytes
    match readFileSync fs "input.dvi" with
    | none => (.error ("fail to generate dvi, log:\n" ++ log), deleteEverything)
    | some d => (.ok (dvi2html d), deleteEverything)

/-- C6: provided the engine run left its diagnostic log behind (the engine
always writes `input.log`), `texify` resets the engine filesystem before it
returns or throws; it throws exactly when no `input.dvi` was produced, the
thrown error carrying the decoded log text, and otherwise returns the markup
converted from the dvi bytes. -/
theorem c6_texify_error_and_reset (fs : EngineFS) (decodeUtf8 dvi2html : List Nat → String)
    (logBytes : List Nat) (hlog : readFileSync fs "input.log" = some logBytes) :
    (texifyTail fs decodeUtf8 dvi2html).2 = deleteEverything ∧
    ((∃ e, (texifyTail fs decodeUtf8 dvi2html).1 = .error e) ↔
      readFileSync fs "input.dvi" = none) ∧
    (readFileSync fs "input.dvi" = none →
      (texifyTail fs decodeUtf8 dvi2html).1 =
        .error ("fail to generate dvi, log:\n" ++ decodeUtf8 logBytes)) ∧
    (∀ d, readFileSync fs "input.dvi" = some d →
      (texifyTail fs decodeUtf8 dvi2html).1 = .ok (dvi2html d)) := by
  rcases hdvi : readFileSync fs "input.dvi" with _ | d <;>
    simp [texifyTail, hlog, hdvi]

/-- Witness for `c6_texify_error_and_reset` at a concrete one-file
filesystem with no dvi output. -/
theorem c6_texify_error_and_reset_witness :
    (texifyTail [("input.log", [76])] (fun _ => "L!") (fun _ => "svg")).2 = [] ∧
    (texifyTail [("input.log", [76])] (fun _ => "L!") (fun _ => "svg")).1 =
      .error ("fail to generate dvi, log:\n" ++ "L!") := by
  have h := c6_texify_error_and_reset [("input.log", [76])]
    (fun _ => "L!") (fun _ => "svg") [76] rfl
  exact ⟨h.1, h.2.2.1 rfl⟩

/-! ## C5: lifecycle events per element

Model of the per-element event behaviour of `processTikzScripts`
(`index.js` lines 32-184).  `loadCachedOrSetupLoader` (lines 36-76) resolves
an element from cache at discovery — firing only the element-scoped bubbling
`tikzjax-load-finished` event — or pushes it onto `texQueue` behind a
placeholder.  `process` (lines 78-155) re-checks the cache: a recheck hit
fires `tikzjax-load-finished` *and* a document-scoped
`tikzjax-render-finished` success event (lines 85-95) without calling the
engine; otherwise `texify` is called, firing `tikzjax-render-finished` with
status error (line 106) on failure, or `tikzjax-load-finished` followed by
`tikzjax-render-finished` success (lines 151-154) after injection and cache
write.  Cache lookups are skipped entirely when `data-disable-cache` is set
(lines 39 and 83). -/

/-- The two custom events raised by the pipeline. -/
inductive PageEvent where
  /-- element-scoped bubbling `tikzjax-load-finished` -/
  | loadFinished : PageEvent
  /-- document-scoped `tikzjax-render-finished` with success/error status -/
  | renderFinished (success : Bool) : PageEvent
deriving DecidableEq, Repr

/-- Does an event have type `tikzjax-render-finished` (either status)? -/
def PageEvent.isRenderFinished : PageEvent → Bool
  | .renderFinished _ => true
  | _ => false

/-- `loadCachedOrSetupLoader` for one element: events fired at discovery and
whether the element was pushed onto `texQueue`.  `cacheHit` is whether
`getItem(elt.sourceHash)` finds a saved svg. -/
def loadCachedOrSetupLoader (disableCache cacheHit : Bool) :
    List PageEvent × Bool :=
  if !disableCache && cacheHit then ([.loadFinished], false) else ([], true)

/-- `process` for one batched element: events fired and whether
`texWorker.texify` was called.  `recheckHit` is whether the second cache
lookup (line 83) finds a saved svg; `engineOk` is whether `texify`
resolves rather than throws. -/
def process (disableCache recheckHit engineOk : Bool) :
    List PageEvent × Bool :=
  if !disableCache && recheckHit then
    ([.loadFinished, .renderFinished true], false)
  else if engineOk then
    ([.loadFinished, .renderFinished true], true)
  else
    ([.renderFinished false], true)

/-- The complete event trace of one element through discovery and (if
enqueued) batch processing, together with whether the engine was called for
it. -/
def elementRun (disableCache discoveryHit recheckHit engineOk : Bool) :
    List PageEvent × Bool :=
  let d := loadCachedOrSetupLoader disableCache discoveryHit
  if d.2 then
    let p := process disableCache recheckHit engineOk
    (d.1 ++ p.1, p.2)
  else
    (d.1, false)

/-- C5 counterexample: an element that misses the cache at discovery but hits
it at the batch-time recheck resolves purely from cache — the engine is never
called for it — yet the code fires a `tikzjax-render-finished` (success)
event for it (line 93), contradicting the claim that the event is never
fired for an element that resolves as a pure cache hit. -/
theorem c5_counterexample :
    (elementRun false false true true).2 = false ∧
    PageEvent.renderFinished true ∈ (elementRun false false true true).1 := by
  decide

/-- C5 amended: `tikzjax-render-finished` is fired exactly once per element
that is pushed onto the engine queue — whether it resolves by engine success,
engine failure, or a batch-time cache recheck hit — and never for an element
that resolves from cache at discovery, which fires only the element-scoped
`tikzjax-load-finished` event. -/
theorem c5_render_finished_once_per_batched :
    ∀ disableCache discoveryHit recheckHit engineOk : Bool,
    ((elementRun disableCache discoveryHit recheckHit engineOk).1.countP
        PageEvent.isRenderFinished =
      if (loadCachedOrSetupLoader disableCache discoveryHit).2 then 1 else 0) ∧
    ((loadCachedOrSetupLoader disableCache discoveryHit).2 = false →
      (elementRun disableCache discoveryHit recheckHit engineOk).1 =
        [.loadFinished]) := by
  decide

/-- Witness for the implication inside
`c5_render_finished_once_per_batched` at a concrete discovery cache hit. -/
theorem c5_render_finished_once_per_batched_witness :
    (loadCachedOrSetupLoader false true).2 = false ∧
    (elementRun false true false false).1 = [.loadFinished] := by
  exact ⟨by decide, (c5_render_finished_once_per_batched false true false false).2 (by decide)⟩

/-! ## Hexadecimal rendering (`Number.prototype.toString(16)` and friends) -/

/-- One hexadecimal digit, uppercase (as produced by `toUpperCase()`). -/
def hexDigitUpper (n : Nat) : Char :=
  if n < 10 then Char.ofNat (48 + n) else Char.ofNat (55 + n)

/-- One hexadecimal digit, lowercase (as produced by `toString(16)`). -/
def hexDigitLower (n : Nat) : Char :=
  if n < 10 then Char.ofNat (48 + n) else Char.ofNat (87 + n)

/-- Big-endian hexadecimal digits of `n` (uppercase), empty for `0`; the fuel
(any bound that is at least `n`) keeps the recursion structural. -/
def hexDigitsUpperF : Nat → Nat → List Char
  | 0, _ => []
  | fuel + 1, n => if n = 0 then [] else hexDigitsUpperF fuel (n / 16) ++ [hexDigitUpper (n % 16)]

/-- `n.toString(16).toUpperCase()`. -/
def toHexUpper (n : Nat) : List Char :=
  if n = 0 then ['0'] else hexDigitsUpperF n n

/-- `b.toString(16).padStart(2, '0')` for a byte value, lowercase. -/
def hexByteLower (b : Nat) : List Char :=
  padStart 2 '0' (if b = 0 then ['0']
    else if b < 16 then [hexDigitLower (b % 16)]
    else [hexDigitLower (b / 16 % 16), hexDigitLower (b % 16)])

/-! ## C7 and C10: the input assembler of the second worker variant

Translation of `texify`'s input assembly (`run-tex` variant 2, lines
628-666): line filtering, the unsupported-character scan and fallback
directives, preamble construction, and document-boundary handling. -/

/-- `getUnicode` (lines 458-461): `'U+' + code.toString(16).toUpperCase().padStart(4, '0')`. -/
def getUnicode (c : Char) : List Char :=
  'U' :: '+' :: padStart 4 '0' (toHexUpper c.toNat)

/-- `findNotSupportedChars` (lines 474-483): every character of the input
whose code point exceeds the engine's native 8-bit range, one entry per
occurrence (no deduplication in the source). -/
def findNotSupportedChars (s : List Char) : List Char :=
  s.filter (fun c => 255 < c.toNat)

/-- The fallback directive synthesized for one unsupported character
(lines 655-659):
`\newunicodechar{<c>}{\rlap{[U+XXXX]}\phantom{xx}}` plus a newline. -/
def newunicodecharDirective (c : Char) : List Char :=
  "\\newunicodechar\x7b".toList ++ [c] ++ "\x7d\x7b\\rlap\x7b[".toList ++
    getUnicode c ++ "]\x7d\\phantom\x7bxx\x7d\x7d\n".toList

/-- The package inclusion emitted when at least one unsupported character is
present (line 654). -/
def usePackageNewunicodechar : List Char :=
  "\\usepackage\x7bnewunicodechar\x7d\n".toList

/-- The `reduce` of line 655: concatenation of one directive per entry of
`unsupportChars`. -/
def unicodeDirectives (chars : List Char) : List Char :=
  (chars.map newunicodecharDirective).flatten

/-- The unsupported-character block of the preamble: the package inclusion
(present exactly when the scan found something, line 654) followed by the
directives. -/
def unicodeBlock (unsupportChars : List Char) : List Char :=
  (if unsupportChars.isEmpty then [] else usePackageNewunicodechar) ++
    unicodeDirectives unsupportChars

/-- The search string of `line.includes('\\documentclass')` (line 631). -/
def docclassPat : List Char := "\\documentclass".toList

/-- Line filtering (line 631):
`input.split('\n').filter(line => line.trim() && !line.includes('\\documentclass')).join('\n')`. -/
def filterLines (input : List Char) : List Char :=
  joinWithChar '\n'
    ((splitOnChar '\n' input).filter
      (fun l => !(jsTrim l).isEmpty && !(jsIncludes docclassPat l)))

/-- Parse a literal ASCII string case-insensitively at the head of `s`,
returning the remainder on success. -/
def parseLitCI : List Char → List Char → Option (List Char)
  | [], s => some s
  | _, [] => none
  | l :: ls, c :: cs =>
    if toLowerAscii c = toLowerAscii l then parseLitCI ls cs else none

/-- Does the regex `/\\begin\s*\{\s*document\s*\}/i` match at the head of
`s`? -/
def beginDocAt (s : List Char) : Bool :=
  match parseLitCI "\\begin".toList s with
  | none => false
  | some r1 =>
    match r1.dropWhile isJsWhite with
    | '{' :: r2 =>
      match parseLitCI "document".toList (r2.dropWhile isJsWhite) with
      | none => false
      | some r3 =>
        match r3.dropWhile isJsWhite with
        | '}' :: _ => true
        | _ => false
    | _ => false

/-- `input.match(/\\begin\s*\{\s*document\s*\}/i)`: index of the leftmost
match, if any (line 634). -/
def findBeginDoc : List Char → Option Nat
  | [] => none
  | c :: rest =>
    if beginDocAt (c :: rest) then some 0
    else (findBeginDoc rest).map (fun i => i + 1)

/-- The per-element configuration read by `texify` from the dataset; values
are strings, with JavaScript falsiness of the empty string. -/
structure Dataset where
  /-- the parsed `data-tex-packages` JSON map, in insertion order -/
  texPackages : List (List Char × List Char)
  /-- `data-tikz-libraries` -/
  tikzLibraries : List Char
  /-- `data-add-to-preamble` -/
  addToPreamble : List Char

/-- The `\usepackage` lines built from the package map (lines 647-651). -/
def usePackageString (pkgs : List (List Char × List Char)) : List Char :=
  (pkgs.map (fun p =>
    "\\usepackage".toList ++
      (if p.2.isEmpty then [] else '[' :: p.2 ++ [']']) ++
      '\x7b' :: p.1 ++ "\x7d\n".toList)).flatten

/-- Does `/\usepackage(?:\[[^\]]*\])?\s*\{\s*tikz-cd\s*\}/i` match at the
head of `s`? -/
def usepackageTikzCdAt (s : List Char) : Bool :=
  match parseLitCI "\\usepackage".toList s with
  | none => false
  | some r =>
    let r1 :=
      match r with
      | '[' :: t =>
        let inside := t.takeWhile (fun c => c ≠ ']')
        match t.drop inside.length with
        | ']' :: t' => t'
        | _ => r
      | _ => r
    match r1.dropWhile isJsWhite with
    | '{' :: r2 =>
      match parseLitCI "tikz-cd".toList (r2.dropWhile isJsWhite) with
      | none => false
      | some r3 =>
        match r3.dropWhile isJsWhite with
        | '}' :: _ => true
        | _ => false
    | _ => false

/-- The test `head.match(/^(?:[^%\n]|\\%)*?\\usepackage(?:\[[^\]]*\])?\s*\{\s*tikz-cd\s*\}/im)`
(line 662): scan the string keeping track of whether an unescaped `%` has
occurred since the last line start (which blocks a match anchored on that
line) and of whether the previous character was a backslash. -/
def tikzCdScan : Bool → Bool → List Char → Bool
  | _, _, [] => false
  | blocked, prevBackslash, c :: rest =>
    if !blocked && usepackageTikzCdAt (c :: rest) then true
    else
      let blocked' := if c = '\n' then false
        else blocked || (c = '%' && !prevBackslash)
      tikzCdScan blocked' (c = '\\') rest

/-- `head` matches the tikz-cd usepackage pattern of line 662. -/
def hasTikzCdUsepackage (head : List Char) : Bool :=
  tikzCdScan false false head

/-- The complete input document assembled by `texify` (variant 2, lines
628-666) before it is written to `input.tex`: filter the raw lines, scan for
unsupported characters, split at `\begin{document}` (or wrap the whole input
as a body), then prepend packages, libraries, user preamble, the
unsupported-character block, and the tikz-cd compatibility directive. -/
def assembleDocument (rawInput : List Char) (ds : Dataset) : List Char :=
  let input := filterLines rawInput
  let unsupportChars := findNotSupportedChars input
  let headBody : List Char × List Char :=
    match findBeginDoc input with
    | some i => (input.take i, input.drop i)
    | none =>
      ([], "\\begin\x7bdocument\x7d\n".toList ++ input ++ "\n\\end\x7bdocument\x7d\n".toList)
  let head1 :=
    usePackageString ds.texPackages ++
    (if ds.tikzLibraries.isEmpty then []
      else "\\usetikzlibrary\x7b".toList ++ ds.tikzLibraries ++ "\x7d\n".toList) ++
    ds.addToPreamble ++
    unicodeBlock unsupportChars ++
    headBody.1
  let head2 :=
    if hasTikzCdUsepackage head1 then
      head1 ++ "\\tikzcdset\x7bnodes in empty cells\x7d\n".toList
    else head1
  head2 ++ headBody.2

/-! ### C7: directive counting -/

/-- The directive name scanned for when counting fallback directives. -/
def nucPat : List Char := "\\newunicodechar".toList

theorem countOcc_nil_of_ne (pat : List Char) (h : pat ≠ []) : countOcc pat [] = 0 := by
  simp [countOcc, h]

/-- Occurrence counting skips any block none of whose characters equals the
head of the pattern. -/
theorem countOcc_skip (p0 : Char) (pat : List Char) (x rest : List Char)
    (hx : ∀ ch ∈ x, ch ≠ p0) :
    countOcc (p0 :: pat) (x ++ rest) = countOcc (p0 :: pat) rest := by
  induction x with
  | nil => rfl
  | cons c cs ih =>
    have hc : c ≠ p0 := hx c (List.mem_cons_self c cs)
    have hbeq : (p0 == c) = false := beq_eq_false_iff_ne.mpr (Ne.symm hc)
    simp only [List.cons_append, countOcc, List.isPrefixOf, hbeq, Bool.false_and,
      if_false]
    simpa using ih (fun ch h => hx ch (List.mem_cons_of_mem c h))

theorem hexDigitUpper_ne_backslash (m : Nat) (hm : m < 16) :
    hexDigitUpper m ≠ '\\' := by
  interval_cases m <;> decide

theorem mem_hexDigitsUpperF_ne_backslash (fuel n : Nat) :
    ∀ c ∈ hexDigitsUpperF fuel n, c ≠ '\\' := by
  induction fuel generalizing n with
  | zero => intro c hc; simp [hexDigitsUpperF] at hc
  | succ fuel ih =>
    intro c hc
    simp only [hexDigitsUpperF] at hc
    by_cases hz : n = 0
    · simp [hz] at hc
    · rw [if_neg hz] at hc
      rcases List.mem_append.mp hc with h | h
      · exact ih (n / 16) c h
      · simp at h
        exact h ▸ hexDigitUpper_ne_backslash (n % 16) (Nat.mod_lt n (by omega))

theorem mem_getUnicode_ne_backslash (c : Char) : ∀ ch ∈ getUnicode c, ch ≠ '\\' := by
  intro ch hch
  simp only [getUnicode, padStart] at hch
  rcases List.mem_cons.mp hch with h | h
  · subst h; decide
  rcases List.mem_cons.mp h with h' | h'
  · subst h'; decide
  rcases List.mem_append.mp h' with h2 | h2
  · have := List.eq_of_mem_replicate h2
    subst this; decide
  · simp only [toHexUpper] at h2
    by_cases hz : c.toNat = 0
    · rw [hz] at h2; simp at h2; subst h2; decide
    · rw [if_neg hz] at h2
      exact mem_hexDigitsUpperF_ne_backslash _ _ ch h2

/-- Each synthesized directive contains the text `\newunicodechar` exactly
once, wherever it is spliced. -/
theorem countOcc_nuc_directive (c : Char) (hc : 255 < c.toNat) (X : List Char) :
    countOcc nucPat (newunicodecharDirective c ++ X) = 1 + countOcc nucPat X := by
  have hcne : c ≠ '\\' := by
    intro h; rw [h] at hc; exact absurd hc (by decide)
  have hbeq : (('\\' : Char) == c) = false := beq_eq_false_iff_ne.mpr (Ne.symm hcne)
  have h1 : newunicodecharDirective c ++ X =
      "\\newunicodechar\x7b".toList ++ (c ::
        ("\x7d\x7b\\rlap\x7b[".toList ++ (getUnicode c ++
          ("]\x7d\\phantom\x7bxx\x7d\x7d\n".toList ++ X)))) := by
    simp [newunicodecharDirective]
  rw [h1]
  have step1 : ∀ Y : List Char,
      countOcc nucPat ("\\newunicodechar\x7b".toList ++ Y) = 1 + countOcc nucPat Y := by
    intro Y; simp [countOcc, List.isPrefixOf, nucPat]
  rw [step1]
  have step2 : ∀ Y : List Char, countOcc nucPat (c :: Y) = countOcc nucPat Y := by
    intro Y; simp [countOcc, List.isPrefixOf, nucPat, hbeq]
  rw [step2]
  have step3 : ∀ Y : List Char,
      countOcc nucPat ("\x7d\x7b\\rlap\x7b[".toList ++ Y) = countOcc nucPat Y := by
    intro Y; simp [countOcc, List.isPrefixOf, nucPat]
  rw [step3]
  have step4 : countOcc nucPat (getUnicode c ++
      ("]\x7d\\phantom\x7bxx\x7d\x7d\n".toList ++ X)) =
      countOcc nucPat ("]\x7d\\phantom\x7bxx\x7d\x7d\n".toList ++ X) := by
    have : nucPat = '\\' :: "newunicodechar".toList := by decide
    rw [this]
    exact countOcc_skip '\\' _ _ _ (mem_getUnicode_ne_backslash c)
  rw [step4]
  have step5 : countOcc nucPat ("]\x7d\\phantom\x7bxx\x7d\x7d\n".toList ++ X) =
      countOcc nucPat X := by
    simp [countOcc, List.isPrefixOf, nucPat]
  rw [step5]

/-- A directive never contains the `\usepackage{newunicodechar}` line. -/
theorem countOcc_upkg_directive (c : Char) (hc : 255 < c.toNat) (X : List Char) :
    countOcc usePackageNewunicodechar (newunicodecharDirective c ++ X) =
      countOcc usePackageNewunicodechar X := by
  have hcne : c ≠ '\\' := by
    intro h; rw [h] at hc; exact absurd hc (by decide)
  have hbeq : (('\\' : Char) == c) = false := beq_eq_false_iff_ne.mpr (Ne.symm hcne)
  have h1 : newunicodecharDirective c ++ X =
      "\\newunicodechar\x7b".toList ++ (c ::
        ("\x7d\x7b\\rlap\x7b[".toList ++ (getUnicode c ++
          ("]\x7d\\phantom\x7bxx\x7d\x7d\n".toList ++ X)))) := by
    simp [newunicodecharDirective]
  rw [h1]
  have step1 : ∀ Y : List Char,
      countOcc usePackageNewunicodechar ("\\newunicodechar\x7b".toList ++ Y) =
        countOcc usePackageNewunicodechar Y := by
    intro Y; simp [countOcc, List.isPrefixOf, usePackageNewunicodechar]
  rw [step1]
  have step2 : ∀ Y : List Char,
      countOcc usePackageNewunicodechar (c :: Y) = countOcc usePackageNewunicodechar Y := by
    intro Y; simp [countOcc, List.isPrefixOf, usePackageNewunicodechar, hbeq]
  rw [step2]
  have step3 : ∀ Y : List Char,
      countOcc usePackageNewunicodechar ("\x7d\x7b\\rlap\x7b[".toList ++ Y) =
        countOcc usePackageNewunicodechar Y := by
    intro Y; simp [countOcc, List.isPrefixOf, usePackageNewunicodechar]
  rw [step3]
  have step4 : countOcc usePackageNewunicodechar (getUnicode c ++
      ("]\x7d\\phantom\x7bxx\x7d\x7d\n".toList ++ X)) =
      countOcc usePackageNewunicodechar ("]\x7d\\phantom\x7bxx\x7d\x7d\n".toList ++ X) := by
    have : usePackageNewunicodechar = '\\' :: "usepackage\x7bnewunicodechar\x7d\n".toList := by
      decide
    rw [this]
    exact countOcc_skip '\\' _ _ _ (mem_getUnicode_ne_backslash c)
  rw [step4]
  have step5 : countOcc usePackageNewunicodechar
      ("]\x7d\\phantom\x7bxx\x7d\x7d\n".toList ++ X) =
      countOcc usePackageNewunicodechar X := by
    simp [countOcc, List.isPrefixOf, usePackageNewunicodechar]
  rw [step5]

theorem countOcc_nuc_directives (chars : List Char) (h : ∀ c ∈ chars, 255 < c.toNat) :
    countOcc nucPat (unicodeDirectives chars) = chars.length := by
  induction chars with
  | nil => simp [unicodeDirectives, countOcc_nil_of_ne nucPat (by decide)]
  | cons c cs ih =>
    have hdir : unicodeDirectives (c :: cs) =
        newunicodecharDirective c ++ unicodeDirectives cs := by
      simp [unicodeDirectives]
    rw [hdir, countOcc_nuc_directive c (h c (List.mem_cons_self c cs)),
      ih (fun x hx => h x (List.mem_cons_of_mem c hx))]
    simp [Nat.add_comm]

theorem countOcc_upkg_directives (chars : List Char) (h : ∀ c ∈ chars, 255 < c.toNat) :
    countOcc usePackageNewunicodechar (unicodeDirectives chars) = 0 := by
  induction chars with
  | nil => simp [unicodeDirectives, countOcc_nil_of_ne usePackageNewunicodechar (by decide)]
  | cons c cs ih =>
    have hdir : unicodeDirectives (c :: cs) =
        newunicodecharDirective c ++ unicodeDirectives cs := by
      simp [unicodeDirectives]
    rw [hdir, countOcc_upkg_directive c (h c (List.mem_cons_self c cs)),
      ih (fun x hx => h x (List.mem_cons_of_mem c hx))]

/-- C7 counterexample: for the input `中中` the scan reports the character
twice and the assembler synthesizes **two** identical directives — not one
per distinct character as claimed (the source never deduplicates). -/
theorem c7_counterexample :
    countOcc nucPat (unicodeBlock (findNotSupportedChars "中中".toList)) = 2 ∧
    (findNotSupportedChars "中中".toList).dedup.length = 1 ∧
    countOcc nucPat (unicodeBlock (findNotSupportedChars "中中".toList)) ≠
      (findNotSupportedChars "中中".toList).dedup.length := by
  refine ⟨by decide, by decide, by decide⟩

/-- C7 amended: the assembler synthesizes exactly one `\newunicodechar`
directive per **occurrence** of a character outside the 8-bit range (a
character occurring `n` times yields `n` identical directives), plus exactly
one `\usepackage{newunicodechar}` inclusion when at least one such character
is present and none otherwise. -/
theorem c7_one_directive_per_occurrence (input : List Char) :
    countOcc nucPat (unicodeBlock (findNotSupportedChars input)) =
      input.countP (fun c => 255 < c.toNat) ∧
    countOcc usePackageNewunicodechar (unicodeBlock (findNotSupportedChars input)) =
      (if (findNotSupportedChars input).isEmpty then 0 else 1) := by
  have hmem : ∀ c ∈ findNotSupportedChars input, 255 < c.toNat := by
    intro c hc
    have := List.of_mem_filter hc
    simpa using this
  have hlen : (findNotSupportedChars input).length = input.countP (fun c => 255 < c.toNat) := by
    simp [findNotSupportedChars, List.countP_eq_length_filter]
  constructor
  · by_cases he : (findNotSupportedChars input).isEmpty
    · rw [List.isEmpty_iff] at he
      simp [unicodeBlock, he, unicodeDirectives,
        countOcc_nil_of_ne nucPat (by decide)]
      rw [← hlen, he]; rfl
    · simp only [unicodeBlock, if_neg he]
      rw [← hlen]
      have hupkg : ∀ Y : List Char, countOcc nucPat (usePackageNewunicodechar ++ Y) =
          countOcc nucPat Y := by
        intro Y; simp [countOcc, List.isPrefixOf, nucPat, usePackageNewunicodechar]
      rw [hupkg, countOcc_nuc_directives _ hmem]
  · by_cases he : (findNotSupportedChars input).isEmpty
    · rw [List.isEmpty_iff] at he
      simp [unicodeBlock, he, unicodeDirectives,
        countOcc_nil_of_ne usePackageNewunicodechar (by decide)]
    · simp only [unicodeBlock, if_neg he]
      have hupkg : ∀ Y : List Char,
          countOcc usePackageNewunicodechar (usePackageNewunicodechar ++ Y) =
            1 + countOcc usePackageNewunicodechar Y := by
        intro Y; simp [countOcc, List.isPrefixOf, usePackageNewunicodechar]
      rw [hupkg, countOcc_upkg_directives _ hmem]

/-! ### C10: `\documentclass` removal -/

theorem isPrefixOf_append_sep (pat a b : List Char) (sep : Char) (hsep : sep ∉ pat)
    (h : pat.isPrefixOf (a ++ sep :: b) = true) : pat.isPrefixOf a = true := by
  induction a generalizing pat with
  | nil =>
    cases pat with
    | nil => rfl
    | cons p ps =>
      simp only [List.nil_append, List.isPrefixOf, Bool.and_eq_true, beq_iff_eq] at h
      exact absurd (h.1 ▸ List.mem_cons_self p ps) hsep
  | cons c a' ih =>
    cases pat with
    | nil => rfl
    | cons p ps =>
      simp only [List.cons_append, List.isPrefixOf, Bool.and_eq_true] at h ⊢
      exact ⟨h.1, ih ps (fun hm => hsep (List.mem_cons_of_mem p hm)) h.2⟩

theorem jsIncludes_of_isPrefixOf (pat a : List Char) (h : pat.isPrefixOf a = true) :
    jsIncludes pat a = true := by
  cases a with
  | nil =>
    cases pat with
    | nil => rfl
    | cons p ps => simp [List.isPrefixOf] at h
  | cons c rest => simp [jsIncludes, h]

theorem jsIncludes_cons_of (pat : List Char) (c : Char) (a : List Char)
    (h : jsIncludes pat a = true) : jsIncludes pat (c :: a) = true := by
  cases a with
  | nil =>
    cases pat with
    | nil => rfl
    | cons p ps => simp [jsIncludes] at h
  | cons d rest =>
    show (pat.isPrefixOf (c :: d :: rest) || jsIncludes pat (d :: rest)) = true
    rw [h, Bool.or_true]

theorem jsIncludes_append_sep_elim (pat a b : List Char) (sep : Char) (hsep : sep ∉ pat)
    (h : jsIncludes pat (a ++ sep :: b) = true) :
    jsIncludes pat a = true ∨ jsIncludes pat b = true := by
  induction a with
  | nil =>
    simp only [List.nil_append, jsIncludes, Bool.or_eq_true] at h
    rcases h with h | h
    · cases pat with
      | nil => left; rfl
      | cons p ps =>
        simp only [List.isPrefixOf, Bool.and_eq_true, beq_iff_eq] at h
        exact absurd (h.1 ▸ List.mem_cons_self p ps) hsep
    · right; exact h
  | cons c a' ih =>
    simp only [List.cons_append, jsIncludes, Bool.or_eq_true] at h
    rcases h with h | h
    · left
      exact jsIncludes_of_isPrefixOf pat (c :: a')
        (isPrefixOf_append_sep pat (c :: a') b sep hsep h)
    · rcases ih h with h1 | h1
      · left; exact jsIncludes_cons_of pat c a' h1
      · right; exact h1

theorem jsIncludes_joinWithChar_elim (pat : List Char) (sep : Char) (L : List (List Char))
    (hsep : sep ∉ pat) (hpat : pat ≠ [])
    (h : jsIncludes pat (joinWithChar sep L) = true) :
    ∃ l ∈ L, jsIncludes pat l = true := by
  induction L with
  | nil =>
    exfalso
    simp [joinWithChar, List.intercalate, jsIncludes, List.isEmpty_iff, hpat] at h
  | cons l ls ih =>
    cases ls with
    | nil =>
      refine ⟨l, List.mem_cons_self l [], ?_⟩
      simpa [joinWithChar, List.intercalate] using h
    | cons m ms =>
      rw [joinWithChar_cons_cons] at h
      rcases jsIncludes_append_sep_elim pat l _ sep hsep h with h1 | h1
      · exact ⟨l, List.mem_cons_self l _, h1⟩
      · rcases ih h1 with ⟨x, hx, hxi⟩
        exact ⟨x, List.mem_cons_of_mem l hx, hxi⟩

/-- The predicate of the line filter (line 631). -/
def keepLine (l : List Char) : Bool :=
  !(jsTrim l).isEmpty && !(jsIncludes docclassPat l)

theorem filterLines_eq_join_filter (s : List Char) :
    filterLines s = joinWithChar '\n' ((splitOnChar '\n' s).filter keepLine) := rfl

theorem filterLines_idem (s : List Char) : filterLines (filterLines s) = filterLines s := by
  rcases hL : (splitOnChar '\n' s).filter keepLine with _ | ⟨l, ls⟩
  · have h0 : filterLines s = [] := by rw [filterLines_eq_join_filter, hL]; rfl
    rw [h0]
    decide
  · rw [filterLines_eq_join_filter s, hL, filterLines_eq_join_filter]
    have hfree : ∀ x ∈ l :: ls, '\n' ∉ x := by
      intro x hx
      have : x ∈ (splitOnChar '\n' s).filter keepLine := hL ▸ hx
      exact mem_splitOnChar_not_sep '\n' s x (List.mem_of_mem_filter this)
    rw [splitOnChar_joinWithChar '\n' (l :: ls) (by simp) hfree]
    have hkeep : ∀ x ∈ l :: ls, keepLine x = true := by
      intro x hx
      have : x ∈ (splitOnChar '\n' s).filter keepLine := hL ▸ hx
      exact List.of_mem_filter this
    rw [List.filter_eq_self.mpr hkeep]

/-- C10: the second worker variant's line filtering removes every line that
is blank or contains `\documentclass` before anything else in `texify` runs:
the assembled document is unchanged by pre-filtering the input (so the
preamble assembly and the unsupported-character scan only ever see the
filtered text), the filtered text contains no occurrence of
`\documentclass` at all, and every line of the filtered text is non-blank
(unless the filter removed everything). -/
theorem c10_documentclass_and_blank_lines_removed (raw : List Char) (ds : Dataset) :
    assembleDocument raw ds = assembleDocument (filterLines raw) ds ∧
    jsIncludes docclassPat (filterLines raw) = false ∧
    (∀ l ∈ splitOnChar '\n' (filterLines raw), jsIncludes docclassPat l = false) ∧
    (filterLines raw = [] ∨
      ∀ l ∈ splitOnChar '\n' (filterLines raw), jsTrim l ≠ []) := by
  have hsep : '\n' ∉ docclassPat := by decide
  have hpat : docclassPat ≠ [] := by decide
  have hkeep : ∀ x ∈ (splitOnChar '\n' raw).filter keepLine, keepLine x = true :=
    fun x hx => List.of_mem_filter hx
  have hnotinc : jsIncludes docclassPat (filterLines raw) = false := by
    by_contra hcon
    rw [Bool.not_eq_false] at hcon
    rw [filterLines_eq_join_filter] at hcon
    rcases jsIncludes_joinWithChar_elim docclassPat '\n' _ hsep hpat hcon with ⟨x, hx, hxi⟩
    have := hkeep x hx
    simp [keepLine, hxi] at this
  refine ⟨?_, hnotinc, ?_, ?_⟩
  · show assembleDocument raw ds = assembleDocument (filterLines raw) ds
    simp only [assembleDocument, filterLines_idem]
  · rcases hL : (splitOnChar '\n' raw).filter keepLine with _ | ⟨l, ls⟩
    · intro x hx
      rw [filterLines_eq_join_filter, hL] at hx
      simp only [joinWithChar, List.intercalate] at hx
      simp only [show (List.intersperse ['\n'] ([] : List (List Char))).flatten = [] from rfl,
        splitOnChar] at hx
      simp at hx
      subst hx
      decide
    · intro x hx
      rw [filterLines_eq_join_filter, hL] at hx
      have hfree : ∀ y ∈ l :: ls, '\n' ∉ y := by
        intro y hy
        have : y ∈ (splitOnChar '\n' raw).filter keepLine := hL ▸ hy
        exact mem_splitOnChar_not_sep '\n' raw y (List.mem_of_mem_filter this)
      rw [splitOnChar_joinWithChar '\n' (l :: ls) (by simp) hfree] at hx
      have := hkeep x (hL ▸ hx)
      simp only [keepLine, Bool.and_eq_true, Bool.not_eq_true'] at this
      exact this.2
  · rcases hL : (splitOnChar '\n' raw).filter keepLine with _ | ⟨l, ls⟩
    · left
      rw [filterLines_eq_join_filter, hL]
      rfl
    · right
      intro x hx
      rw [filterLines_eq_join_filter, hL] at hx
      have hfree : ∀ y ∈ l :: ls, '\n' ∉ y := by
        intro y hy
        have : y ∈ (splitOnChar '\n' raw).filter keepLine := hL ▸ hy
        exact mem_splitOnChar_not_sep '\n' raw y (List.mem_of_mem_filter this)
      rw [splitOnChar_joinWithChar '\n' (l :: ls) (by simp) hfree] at hx
      have := hkeep x (hL ▸ hx)
      simp only [keepLine, Bool.and_eq_true, Bool.not_eq_true'] at this
      intro hnil
      rw [hnil] at this
      simp [List.isEmpty_iff] at this

/-- Witness for `c10_documentclass_and_blank_lines_removed` at a concrete
input with a `\documentclass` line and a blank line. -/
theorem c10_documentclass_and_blank_lines_removed_witness :
    jsIncludes docclassPat (filterLines "a\n\n\\documentclass\x7bart\x7d\nb".toList) = false ∧
    jsTrim "a".toList ≠ [] := by
  have h := c10_documentclass_and_blank_lines_removed
    "a\n\n\\documentclass\x7bart\x7d\nb".toList ⟨[], [], []⟩
  refine ⟨h.2.1, ?_⟩
  exact (h.2.2.2.resolve_left (by decide)) "a".toList (by decide)

/-! ## C3: the fingerprint

`loadCachedOrSetupLoader` computes
`elt.sourceHash = await createHash(JSON.stringify(elt.dataset) + elt.childNodes[0].nodeValue)`
(line 37), where `createHash` (lines 22-26) is the platform's SHA-1 over the
UTF-8 bytes of the string, rendered as lowercase hex.  SHA-1
(`window.crypto.subtle.digest('SHA-1', ...)`) and `JSON.stringify` are
platform primitives; they are embedded below following their standard
definitions (FIPS 180 and ECMA-404/ECMA-262).  `JSON.stringify` serializes a
plain string-keyed object **in insertion order**. -/

/-- Truncation to 32 bits. -/
def u32 (n : Nat) : Nat := n % 4294967296

/-- 32-bit left rotation by `b` of a value below `2 ^ 32`. -/
def rotl32 (b n : Nat) : Nat := u32 (n * 2 ^ b) + n / 2 ^ (32 - b)

/-- The SHA-1 round function (`Ch`/`Parity`/`Maj` by round index). -/
def sha1F (t b c d : Nat) : Nat :=
  if t < 20 then Nat.lor (Nat.land b c) (Nat.land (4294967295 - b) d)
  else if t < 40 then Nat.xor (Nat.xor b c) d
  else if t < 60 then Nat.lor (Nat.lor (Nat.land b c) (Nat.land b d)) (Nat.land c d)
  else Nat.xor (Nat.xor b c) d

/-- The SHA-1 round constants. -/
def sha1K (t : Nat) : Nat :=
  if t < 20 then 0x5A827999 else if t < 40 then 0x6ED9EBA1
  else if t < 60 then 0x8F1BBCDC else 0xCA62C1D6

/-- SHA-1 message-schedule expansion; `acc` holds the words produced so far,
most recent first. -/
def sha1ExpandF : Nat → List Nat → List Nat
  | 0, acc => acc.reverse
  | fuel + 1, acc =>
    let w := rotl32 1 (Nat.xor (Nat.xor (acc.getD 2 0) (acc.getD 7 0))
      (Nat.xor (acc.getD 13 0) (acc.getD 15 0)))
    sha1ExpandF fuel (w :: acc)

/-- Expand 16 block words to the 80 schedule words. -/
def sha1Expand (ws16 : List Nat) : List Nat := sha1ExpandF 64 ws16.reverse

/-- The 80 SHA-1 rounds over the schedule words. -/
def sha1RoundsF : Nat → List Nat → Nat × Nat × Nat × Nat × Nat → Nat × Nat × Nat × Nat × Nat
  | _, [], st => st
  | t, w :: ws, (a, b, c, d, e) =>
    let temp := u32 (rotl32 5 a + sha1F t b c d + e + sha1K t + w)
    sha1RoundsF (t + 1) ws (temp, a, rotl32 30 b, c, d)

/-- Big-endian packing of bytes into 32-bit words. -/
def bytesToWords : List Nat → List Nat
  | b0 :: b1 :: b2 :: b3 :: rest => (((b0 * 256 + b1) * 256 + b2) * 256 + b3) :: bytesToWords rest
  | _ => []

/-- The `k` big-endian bytes of `n` (most significant first). -/
def beBytesF : Nat → Nat → List Nat
  | 0, _ => []
  | k + 1, n => (n / 2 ^ (8 * k)) % 256 :: beBytesF k n

/-- Split a byte list into 64-byte blocks (fuel-driven). -/
def chunks64F : Nat → List Nat → List (List Nat)
  | 0, _ => []
  | _, [] => []
  | fuel + 1, bs => bs.take 64 :: chunks64F fuel (bs.drop 64)

/-- SHA-1 padding: `0x80`, zeros to 56 mod 64, then the 64-bit bit length. -/
def sha1Pad (m : List Nat) : List Nat :=
  let r := (m.length + 1) % 64
  let zeros := (64 + 56 - r) % 64
  m ++ 128 :: (List.replicate zeros 0 ++ beBytesF 8 (8 * m.length))

/-- SHA-1 of a byte list: the 20 digest bytes. -/
def sha1 (m : List Nat) : List Nat :=
  let padded := sha1Pad m
  let final := (chunks64F padded.length padded).foldl
    (fun h block =>
      let ws := sha1Expand (bytesToWords block)
      let r := sha1RoundsF 0 ws h
      (u32 (h.1 + r.1), u32 (h.2.1 + r.2.1), u32 (h.2.2.1 + r.2.2.1),
        u32 (h.2.2.2.1 + r.2.2.2.1), u32 (h.2.2.2.2 + r.2.2.2.2)))
    (0x67452301, 0xEFCDAB89, 0x98BADCFE, 0x10325476, 0xC3D2E1F0)
  beBytesF 4 final.1 ++ beBytesF 4 final.2.1 ++ beBytesF 4 final.2.2.1 ++
    beBytesF 4 final.2.2.2.1 ++ beBytesF 4 final.2.2.2.2

/-- The UTF-8 bytes of one code point (`TextEncoder`). -/
def utf8Char (c : Char) : List Nat :=
  let n := c.toNat
  if n < 128 then [n]
  else if n < 2048 then [192 + n / 64, 128 + n % 64]
  else if n < 65536 then [224 + n / 4096, 128 + n / 64 % 64, 128 + n % 64]
  else [240 + n / 262144, 128 + n / 4096 % 64, 128 + n / 64 % 64, 128 + n % 64]

/-- `new TextEncoder().encode(string)`. -/
def utf8Bytes (s : List Char) : List Nat := (s.map utf8Char).flatten

/-- `createHash` (lines 22-26): SHA-1 of the UTF-8 bytes, each digest byte
rendered as two lowercase hex characters and joined. -/
def createHash (s : List Char) : List Char :=
  ((sha1 (utf8Bytes s)).map hexByteLower).flatten

/-- JSON string-character escaping as performed by `JSON.stringify`. -/
def jsonEscapeChar (c : Char) : List Char :=
  if c = '"' then ['\\', '"']
  else if c = '\\' then ['\\', '\\']
  else if c.toNat = 8 then "\\b".toList
  else if c.toNat = 9 then "\\t".toList
  else if c.toNat = 10 then "\\n".toList
  else if c.toNat = 12 then "\\f".toList
  else if c.toNat = 13 then "\\r".toList
  else if c.toNat < 32 then
    "\\u00".toList ++ [hexDigitLower (c.toNat / 16), hexDigitLower (c.toNat % 16)]
  else [c]

/-- A JSON string literal. -/
def jsonString (s : List Char) : List Char :=
  '"' :: (s.map jsonEscapeChar).flatten ++ ['"']

/-- `JSON.stringify` of a plain string-keyed object with string values, in
insertion order of the keys. -/
def jsonStringifyPairs (pairs : List (List Char × List Char)) : List Char :=
  '\x7b' :: joinWithChar ',' (pairs.map (fun p => jsonString p.1 ++ ':' :: jsonString p.2))
    ++ ['\x7d']

/-- The element fingerprint (line 37):
`createHash(JSON.stringify(elt.dataset) + elt.childNodes[0].nodeValue)`. -/
def fingerprint (config : List (List Char × List Char)) (text : List Char) : List Char :=
  createHash (jsonStringifyPairs config ++ text)

/-! ### C3 theorems -/

theorem hexByteLower_length (b : Nat) : (hexByteLower b).length = 2 := by
  by_cases h0 : b = 0
  · simp [hexByteLower, h0, padStart]
  · by_cases h16 : b < 16 <;> simp [hexByteLower, h0, h16, padStart]

theorem hexDigitLower_isHexLower (m : Nat) (hm : m < 16) :
    isHexLower (hexDigitLower m) = true := by
  interval_cases m <;> decide

theorem mem_hexByteLower_isHexLower (b : Nat) :
    ∀ c ∈ hexByteLower b, isHexLower c = true := by
  intro c hc
  by_cases h0 : b = 0
  · simp [hexByteLower, h0, padStart] at hc
    subst hc; decide
  · by_cases h16 : b < 16
    · simp [hexByteLower, h0, h16, padStart] at hc
      rcases hc with hc | hc
      · subst hc; decide
      · subst hc; exact hexDigitLower_isHexLower _ (Nat.mod_lt b (by omega))
    · simp [hexByteLower, h0, h16, padStart] at hc
      rcases hc with hc | hc
      · subst hc; exact hexDigitLower_isHexLower _ (Nat.mod_lt _ (by omega))
      · subst hc; exact hexDigitLower_isHexLower _ (Nat.mod_lt b (by omega))

theorem beBytesF_length (k n : Nat) : (beBytesF k n).length = k := by
  induction k generalizing n with
  | zero => rfl
  | succ k ih => simp [beBytesF, ih]

theorem sha1_length (m : List Nat) : (sha1 m).length = 20 := by
  simp [sha1, beBytesF_length]

theorem createHash_length (s : List Char) : (createHash s).length = 40 := by
  have h : ∀ bs : List Nat, ((bs.map hexByteLower).flatten).length = 2 * bs.length := by
    intro bs
    induction bs with
    | nil => rfl
    | cons b rest ih =>
      simp only [List.map_cons, List.flatten_cons, List.length_append, ih,
        hexByteLower_length, List.length_cons]
      omega
  rw [createHash, h, sha1_length]

theorem mem_createHash_isHexLower (s : List Char) :
    ∀ c ∈ createHash s, isHexLower c = true := by
  intro c hc
  rw [createHash] at hc
  rcases List.mem_flatten.mp hc with ⟨piece, hpiece, hcp⟩
  rcases List.mem_map.mp hpiece with ⟨b, _, hb⟩
  exact mem_hexByteLower_isHexLower b c (hb ▸ hcp)

/-- C3 counterexample: two configurations with exactly the same key-to-value
bindings, in different insertion order, produce different fingerprints for
the same text — `JSON.stringify` serializes the dataset in insertion order,
so the fingerprint is *not* order-independent as claimed. -/
theorem c3_counterexample :
    List.Perm [("a".toList, "1".toList), ("b".toList, "2".toList)]
      [("b".toList, "2".toList), ("a".toList, "1".toList)] ∧
    fingerprint [("a".toList, "1".toList), ("b".toList, "2".toList)] "t".toList ≠
      fingerprint [("b".toList, "2".toList), ("a".toList, "1".toList)] "t".toList := by
  constructor
  · exact List.Perm.swap _ _ _
  · decide

/-- C3 amended: the fingerprint is a deterministic printable digest — 40
lowercase hexadecimal characters — and identical (configuration, text) pairs
(same bindings in the same insertion order) always yield the identical
fingerprint; order-independence of the configuration does **not** hold (see
the counterexample). -/
theorem c3_fingerprint_deterministic_hex (config : List (List Char × List Char))
    (text : List Char) :
    (fingerprint config text).length = 40 ∧
    (∀ c ∈ fingerprint config text, isHexLower c = true) ∧
    (∀ config' text', config = config' → text = text' →
      fingerprint config text = fingerprint config' text') := by
  refine ⟨createHash_length _, mem_createHash_isHexLower _, ?_⟩
  intro config' text' hc ht
  rw [hc, ht]

/-- Witness for `c3_fingerprint_deterministic_hex` at a concrete
configuration: the hex-digit property evaluated at the first character. -/
theorem c3_fingerprint_deterministic_hex_witness :
    (fingerprint [("width".toList, "100".toList)] "x".toList).length = 40 ∧
    fingerprint [("width".toList, "100".toList)] "x".toList =
      fingerprint [("width".toList, "100".toList)] "x".toList := by
  have h := c3_fingerprint_deterministic_hex [("width".toList, "100".toList)] "x".toList
  exact ⟨h.1, h.2.2 _ _ rfl rfl⟩

/-! ## C1: the single-flight render queue

Model of the batch discipline of `processTikzScripts` (lines 157-181) and
`processQueue` (line 28).  Each call of `processTikzScripts` whose `texQueue`
is non-empty pushes its completion promise onto `processQueue` and, when the
queue then holds more than one entry, awaits the promise pushed immediately
before its own (line 171) — which resolves only after that earlier batch has
finished its whole element loop, including cache writes and page injection,
and called `resolve()` (line 180).  Within a batch the elements are awaited
one at a time (lines 174-176), each `process` call either re-resolving from
cache or performing a single awaited `texify` engine call.

Batches are indexed by the order of their `processQueue.push`; the state of
one batch is:

* `waiting n` — pushed, awaiting its predecessor's promise (line 171);
* `running k inEngine` — executing its element loop with `k` elements left,
  `inEngine` true exactly while a `texify` call is awaited;
* `done` — `resolve()` has run (all cache writes and injections included).
-/

/-- The lifecycle state of one enqueued batch. -/
inductive BatchState where
  | waiting (elems : Nat) : BatchState
  | running (remaining : Nat) (inEngine : Bool) : BatchState
  | done : BatchState
deriving DecidableEq, Repr

/-- A batch that has begun executing (or finished). -/
def BatchState.started : BatchState → Prop
  | .waiting _ => False
  | _ => True

instance : DecidablePred BatchState.started := by
  intro b; cases b <;> simp [BatchState.started] <;> infer_instance

/-- The render queue: batch states in `processQueue.push` order. -/
abbrev QueueState := List BatchState

/-- One asynchronous step of the queue system.  `start` is gated exactly as
line 171 gates it: batch `i` may begin its element loop only when it is the
first batch or the batch pushed immediately before it has resolved. -/
inductive QStep : QueueState → QueueState → Prop where
  /-- a new discovery batch with `n` to-render elements pushes its promise
  (line 170) -/
  | enqueue (q : QueueState) (n : Nat) : QStep q (q ++ [.waiting n])
  /-- `await processQueue[processQueue.length - 2]` resolves (line 171) and
  the element loop begins -/
  | start (q : QueueState) (i n : Nat) (h : q.get? i = some (.waiting n))
      (hpred : i = 0 ∨ q.get? (i - 1) = some .done) :
      QStep q (q.set i (.running n false))
  /-- the current element issues its `texify` engine call (line 99) -/
  | engineCall (q : QueueState) (i k : Nat)
      (h : q.get? i = some (.running (k + 1) false)) :
      QStep q (q.set i (.running (k + 1) true))
  /-- the engine call resolves (or rejects) and the element finishes
  (injection, cache write, events) -/
  | engineRet (q : QueueState) (i k : Nat)
      (h : q.get? i = some (.running (k + 1) true)) :
      QStep q (q.set i (.running k false))
  /-- the current element resolves from the cache recheck without an engine
  call (lines 85-95) -/
  | skipElem (q : QueueState) (i k : Nat)
      (h : q.get? i = some (.running (k + 1) false)) :
      QStep q (q.set i (.running k false))
  /-- the element loop ends, `processQueue.shift()` runs and `resolve()` is
  called (lines 178-180) -/
  | finish (q : QueueState) (i : Nat) (h : q.get? i = some (.running 0 false)) :
      QStep q (q.set i .done)

/-- Queue states reachable from the initially empty queue. -/
inductive QReach : QueueState → Prop where
  | init : QReach []
  | step {q q' : QueueState} : QReach q → QStep q q' → QReach q'

/-- The key invariant: a batch that has started implies every
earlier-enqueued batch is done. -/
def QInv (q : QueueState) : Prop :=
  ∀ i b, q.get? i = some b → b.started → ∀ j < i, q.get? j = some .done

theorem qinv_nil : QInv [] := by
  intro i b h
  simp at h

theorem qget_set_ne (l : QueueState) (i j : Nat) (a : BatchState) (h : i ≠ j) :
    (l.set i a).get? j = l.get? j :=
  List.get?_set_ne a l h

/-- Preservation of the invariant when overwriting a started, not-yet-done
batch state with another started state. -/
theorem qinv_set {q : QueueState} (hq : QInv q) {i : Nat} {bOld b' : BatchState}
    (hold : q.get? i = some bOld) (hstOld : bOld.started)
    (hndOld : bOld ≠ .done) (hst' : b'.started) :
    QInv (q.set i b') := by
  intro i' b hb hbst j hj
  by_cases hii : i' = i
  · subst hii
    have hjne : i' ≠ j := by omega
    rw [qget_set_ne _ _ _ _ hjne]
    exact hq i' bOld hold hstOld j hj
  · rw [qget_set_ne _ _ _ _ (fun h => hii h.symm)] at hb
    by_cases hji : j = i
    · subst hji
      exfalso
      have hdone := hq i' b hb hbst j hj
      rw [hdone] at hold
      exact hndOld (by injection hold with h1; exact h1.symm)
    · rw [qget_set_ne _ _ _ _ (fun h => hji h.symm)]
      exact hq i' b hb hbst j hj

theorem qinv_step {q q' : QueueState} (hq : QInv q) (hs : QStep q q') : QInv q' := by
  cases hs with
  | enqueue n =>
    intro i b hb hst j hj
    by_cases hi : i < q.length
    · rw [List.get?_append hi] at hb
      rw [List.get?_append (by omega)]
      exact hq i b hb hst j hj
    · exfalso
      rw [List.get?_append_right (by omega)] at hb
      rcases Nat.lt_or_ge i (q.length + 1) with h1 | h1
      · have hieq : i = q.length := by omega
        rw [hieq, Nat.sub_self] at hb
        simp at hb
        rw [← hb] at hst
        exact hst
      · have h2 : 1 ≤ i - q.length := by omega
        rcases Nat.exists_eq_add_of_le h2 with ⟨k, hk⟩
        rw [hk] at hb
        rw [List.get?_eq_getElem?, List.getElem?_eq_none (by simp)] at hb
        exact Option.noConfusion hb
  | start i n h hpred =>
    intro i' b hb hbst j hj
    by_cases hii : i' = i
    · subst hii
      have hjne : i' ≠ j := by omega
      rw [qget_set_ne _ _ _ _ hjne]
      rcases hpred with h0 | hprev
      · omega
      · rcases Nat.lt_or_ge j (i' - 1) with hlt | hge
        · exact hq (i' - 1) .done hprev (by trivial) j hlt
        · have hje : j = i' - 1 := by omega
          subst hje
          exact hprev
    · rw [qget_set_ne _ _ _ _ (fun heq => hii heq.symm)] at hb
      by_cases hji : j = i
      · subst hji
        exfalso
        have hdone := hq i' b hb hbst j hj
        rw [hdone] at h
        simp at h
      · rw [qget_set_ne _ _ _ _ (fun heq => hji heq.symm)]
        exact hq i' b hb hbst j hj
  | engineCall i k h =>
    exact qinv_set hq h (by trivial) (by simp) (by trivial)
  | engineRet i k h =>
    exact qinv_set hq h (by trivial) (by simp) (by trivial)
  | skipElem i k h =>
    exact qinv_set hq h (by trivial) (by simp) (by trivial)
  | finish i h =>
    exact qinv_set hq h (by trivial) (by simp) (by trivial)

theorem qinv_of_reach {q : QueueState} (h : QReach q) : QInv q := by
  induction h with
  | init => exact qinv_nil
  | step _ hs ih => exact qinv_step ih hs

/-- C1: in every reachable queue state, (a) while a batch has an engine call
in flight every batch enqueued before it is fully done and no other batch is
even running — so at most one element is being rendered by the engine at any
instant, globally — and (b) batches complete in enqueue order: a done batch
implies every earlier batch is done. -/
theorem c1_single_flight {q : QueueState} (hreach : QReach q) :
    (∀ i k, q.get? i = some (.running k true) →
      (∀ j < i, q.get? j = some .done) ∧
      (∀ i' k' b', i' ≠ i → q.get? i' = some (.running k' b') → False)) ∧
    (∀ i, q.get? i = some .done → ∀ j < i, q.get? j = some .done) := by
  have hinv := qinv_of_reach hreach
  constructor
  · intro i k hik
    refine ⟨hinv i _ hik (by trivial), ?_⟩
    intro i' k' b' hne hi'
    rcases Nat.lt_or_ge i' i with hlt | hge
    · have := hinv i _ hik (by trivial) i' hlt
      rw [this] at hi'
      simp at hi'
    · have hlt : i < i' := by omega
      have := hinv i' _ hi' (by trivial) i hlt
      rw [this] at hik
      simp at hik
  · intro i hi j hj
    exact hinv i _ hi (by trivial) j hj

/-- Witness for `c1_single_flight`: a concrete reachable state — batch 0
fully done, batch 1 mid-engine-call, batch 2 still waiting — in which the
guarantees are checked explicitly. -/
theorem c1_single_flight_witness :
    [BatchState.done, BatchState.running 1 true, BatchState.waiting 3].get? 0 =
        some BatchState.done ∧
    ([BatchState.done, BatchState.running 1 true, BatchState.waiting 3].get? 2 ≠
        some (BatchState.running 1 false)) := by
  have hreach : QReach [BatchState.done, BatchState.running 1 true, BatchState.waiting 3] := by
    have s0 : QReach [] := QReach.init
    have s1 : QReach [BatchState.waiting 1] := QReach.step s0 (QStep.enqueue [] 1)
    have s2 : QReach [BatchState.waiting 1, BatchState.waiting 2] :=
      QReach.step s1 (QStep.enqueue [BatchState.waiting 1] 2)
    have s3 : QReach [BatchState.running 1 false, BatchState.waiting 2] :=
      QReach.step s2 (QStep.start _ 0 1 (by decide) (Or.inl rfl))
    have s4 : QReach [BatchState.running 1 true, BatchState.waiting 2] :=
      QReach.step s3 (QStep.engineCall _ 0 0 (by decide))
    have s5 : QReach [BatchState.running 0 false, BatchState.waiting 2] :=
      QReach.step s4 (QStep.engineRet _ 0 0 (by decide))
    have s6 : QReach [BatchState.done, BatchState.waiting 2] :=
      QReach.step s5 (QStep.finish _ 0 (by decide))
    have s7 : QReach [BatchState.done, BatchState.waiting 2, BatchState.waiting 3] :=
      QReach.step s6 (QStep.enqueue _ 3)
    have s8 : QReach [BatchState.done, BatchState.running 2 false, BatchState.waiting 3] :=
      QReach.step s7 (QStep.start _ 1 2 (by decide) (Or.inr (by decide)))
    have s9 : QReach [BatchState.done, BatchState.running 2 true, BatchState.waiting 3] :=
      QReach.step s8 (QStep.engineCall _ 1 1 (by decide))
    have s10 : QReach [BatchState.done, BatchState.running 1 false, BatchState.waiting 3] :=
      QReach.step s9 (QStep.engineRet _ 1 1 (by decide))
    exact QReach.step s10 (QStep.engineCall _ 1 0 (by decide))
  have h := c1_single_flight hreach
  have h1 := (h.1 1 1 (by decide)).1 0 (by decide)
  refine ⟨h1, ?_⟩
  intro hcon
  exact (h.1 1 1 (by decide)).2 2 1 false (by decide) hcon

/-! ## C8 and C9: multi-page composition (`composeToSVG`)

Translation of `composeToSVG` (run-tex variant 2, lines 589-620): the global
regex `/<svg\b[^>]*>(.*?)<\/svg>/gs` collects every page container (opening
tag with its attributes, lazily-matched body up to the next `</svg>`); if
there is no match the function returns the empty string, otherwise it
re-derives the first container's opening tag via `/<svg\b[^>]*>/i` and emits
it, followed by all bodies in order and a single closing tag. -/

/-- The closing tag literal `</svg>`. -/
def svgCloseTag : List Char := "</svg>".toList

/-- Index of the first occurrence of `pat` in `s` (the lazy `(.*?)` search). -/
def findSubIdx (pat : List Char) : List Char → Option Nat
  | [] => if pat.isEmpty then some 0 else none
  | c :: rest =>
    if pat.isPrefixOf (c :: rest) then some 0
    else (findSubIdx pat rest).map (fun i => i + 1)

/-- Attempt the match of `/<svg\b[^>]*>(.*?)<\/svg>/s` at the head of `s`:
on success, the opening tag, the body, and the remainder after the closing
tag. -/
def svgMatchAt (s : List Char) : Option (List Char × List Char × List Char) :=
  if "<svg".toList.isPrefixOf s then
    let r := s.drop 4
    match r with
    | [] => none
    | c :: _ =>
      if isWordChar c then none
      else
        let attrs := r.takeWhile (fun x => x ≠ '>')
        match r.drop attrs.length with
        | '>' :: r2 =>
          match findSubIdx svgCloseTag r2 with
          | none => none
          | some i => some ("<svg".toList ++ attrs ++ ['>'], r2.take i, r2.drop (i + 6))
        | _ => none
  else none

/-- The global scan of `svgRegex.exec` (lines 595-598): all matches, left to
right, each scan resuming after the previous match's closing tag. -/
def svgScanF : Nat → List Char → List (List Char × List Char)
  | 0, _ => []
  | _, [] => []
  | fuel + 1, c :: rest =>
    match svgMatchAt (c :: rest) with
    | some (tag, body, after) => (tag, body) :: svgScanF fuel after
    | none => svgScanF fuel rest

/-- All `<svg ...>...</svg>` matches of `html`. -/
def svgMatches (html : List Char) : List (List Char × List Char) :=
  svgScanF html.length html

/-- The first match of `/<svg[^>]*>/i` (line 612), preserving the original
spelling of the matched text. -/
def svgOpenTagFirst : List Char → Option (List Char)
  | [] => none
  | c :: rest =>
    if ((c :: rest).take 4).map toLowerAscii = "<svg".toList then
      let r := (c :: rest).drop 4
      let attrs := r.takeWhile (fun x => x ≠ '>')
      match r.drop attrs.length with
      | '>' :: _ => some (((c :: rest).take 4) ++ attrs ++ ['>'])
      | _ => svgOpenTagFirst rest
    else svgOpenTagFirst rest

/-- `composeToSVG` (lines 589-620). -/
def composeToSVG (html : List Char) : List Char :=
  match svgMatches html with
  | [] => []
  | (tag, body) :: rest =>
    let firstTag := tag ++ body ++ svgCloseTag
    let mergedContent := (((tag, body) :: rest).map (fun m => m.2)).flatten
    match svgOpenTagFirst firstTag with
    | none => []
    | some openTag => openTag ++ mergedContent ++ svgCloseTag

/-! ### Substring machinery for the svg scanner -/

theorem jsIncludes_iff_exists_drop (pat s : List Char) :
    jsIncludes pat s = true ↔ ∃ j, pat.isPrefixOf (s.drop j) = true := by
  induction s with
  | nil =>
    constructor
    · intro h
      refine ⟨0, ?_⟩
      simp only [jsIncludes, List.isEmpty_iff] at h
      simp [h, List.isPrefixOf]
    · rintro ⟨j, hj⟩
      simp only [List.drop_nil] at hj
      cases pat with
      | nil => rfl
      | cons p ps => simp [List.isPrefixOf] at hj
  | cons c rest ih =>
    constructor
    · intro h
      simp only [jsIncludes, Bool.or_eq_true] at h
      rcases h with h | h
      · exact ⟨0, h⟩
      · rcases ih.mp h with ⟨j, hj⟩
        exact ⟨j + 1, by simpa using hj⟩
    · rintro ⟨j, hj⟩
      simp only [jsIncludes, Bool.or_eq_true]
      cases j with
      | zero => exact Or.inl hj
      | succ j' => exact Or.inr (ih.mpr ⟨j', by simpa using hj⟩)

theorem jsIncludes_eq_false_of_not_mem (pat s : List Char) (c0 : Char)
    (hpat : pat.head? = some c0) (hs : c0 ∉ s) : jsIncludes pat s = false := by
  by_contra hcon
  rw [Bool.not_eq_false, jsIncludes_iff_exists_drop] at hcon
  rcases hcon with ⟨j, hj⟩
  cases pat with
  | nil => simp at hpat
  | cons p ps =>
    injection hpat with hp
    subst hp
    rcases hdrop : s.drop j with _ | ⟨d, ds⟩
    · rw [hdrop] at hj; simp [List.isPrefixOf] at hj
    · rw [hdrop] at hj
      simp only [List.isPrefixOf, Bool.and_eq_true, beq_iff_eq] at hj
      have : d ∈ s := by
        have : d ∈ s.drop j := hdrop ▸ List.mem_cons_self d ds
        exact List.mem_of_mem_drop this
      exact hs (hj.1 ▸ this)

theorem takeWhile_append_stop (a x : List Char) (stop : Char)
    (ha : ∀ c ∈ a, c ≠ stop) :
    (a ++ stop :: x).takeWhile (fun ch => ch ≠ stop) = a := by
  induction a with
  | nil => simp [List.takeWhile]
  | cons c cs ih =>
    have hc : c ≠ stop := ha c (List.mem_cons_self c cs)
    simp only [List.cons_append, List.takeWhile]
    have hdec : (decide (c ≠ stop)) = true := by simpa using hc
    rw [hdec, List.append_eq, ih (fun d hd => ha d (List.mem_cons_of_mem c hd))]

theorem findSubIdx_correct (pat s : List Char) (i : Nat)
    (h : findSubIdx pat s = some i) : pat.isPrefixOf (s.drop i) = true := by
  induction s generalizing i with
  | nil =>
    simp only [findSubIdx] at h
    by_cases hp : pat.isEmpty
    · rw [if_pos hp] at h
      injection h with h
      subst h
      rw [List.isEmpty_iff] at hp
      simp [hp, List.isPrefixOf]
    · rw [if_neg hp] at h; exact absurd h (by simp)
  | cons c rest ih =>
    simp only [findSubIdx] at h
    by_cases hp : pat.isPrefixOf (c :: rest) = true
    · rw [if_pos hp] at h
      injection h with h
      subst h
      simpa using hp
    · rw [if_neg hp] at h
      rcases Option.map_eq_some'.mp h with ⟨i', hi', rfl⟩
      simpa using ih i' hi'

theorem findSubIdx_min (pat s : List Char) (i : Nat)
    (h : findSubIdx pat s = some i) :
    ∀ j < i, pat.isPrefixOf (s.drop j) = false := by
  induction s generalizing i with
  | nil =>
    intro j hj
    simp only [findSubIdx] at h
    by_cases hp : pat.isEmpty
    · rw [if_pos hp] at h
      injection h with h
      omega
    · rw [if_neg hp] at h; exact absurd h (by simp)
  | cons c rest ih =>
    intro j hj
    simp only [findSubIdx] at h
    by_cases hp : pat.isPrefixOf (c :: rest) = true
    · rw [if_pos hp] at h
      injection h with h
      omega
    · rw [if_neg hp] at h
      rcases Option.map_eq_some'.mp h with ⟨i', hi', rfl⟩
      cases j with
      | zero =>
        simp only [List.drop_zero]
        exact Bool.eq_false_iff.mpr hp
      | succ j' => simpa using ih i' hi' j' (by omega)

theorem isPrefixOf_append_self (pat x : List Char) :
    pat.isPrefixOf (pat ++ x) = true :=
  List.isPrefixOf_iff_prefix.mpr (List.prefix_append pat x)

theorem findSubIdx_some_zero (pat s : List Char) (h : pat.isPrefixOf s = true) :
    findSubIdx pat s = some 0 := by
  cases s with
  | nil =>
    have hp : pat = [] := by
      cases pat with
      | nil => rfl
      | cons p ps => simp [List.isPrefixOf] at h
    simp [findSubIdx, hp]
  | cons c rest => simp [findSubIdx, h]

/-- `</svg>` has pairwise-distinct characters, so it cannot overlap itself:
searching `b ++ </svg> ++ t` with no occurrence inside `b` finds exactly the
appended tag. -/
theorem findSubIdx_close_append (b t : List Char)
    (hb : jsIncludes svgCloseTag b = false) :
    findSubIdx svgCloseTag (b ++ (svgCloseTag ++ t)) = some b.length := by
  induction b with
  | nil =>
    simp only [List.nil_append, List.length_nil]
    exact findSubIdx_some_zero _ _ (isPrefixOf_append_self svgCloseTag t)
  | cons c b' ih =>
    have hb' : jsIncludes svgCloseTag b' = false := by
      simp only [jsIncludes, Bool.or_eq_false_iff] at hb
      exact hb.2
    have hnp : svgCloseTag.isPrefixOf ((c :: b') ++ (svgCloseTag ++ t)) = false := by
      rw [Bool.eq_false_iff]
      intro hcon
      rw [List.isPrefixOf_iff_prefix] at hcon
      have htake := List.prefix_iff_eq_take.mp hcon
      have h6 : svgCloseTag.length = 6 := by decide
      rw [h6, List.take_append_eq_append_take] at htake
      rcases Nat.lt_or_ge (c :: b').length 6 with hlen | hlen
      · -- 1 ≤ |c :: b'| ≤ 5: the closing tag would have to overlap itself,
        -- impossible since its characters are pairwise distinct
        rw [List.take_of_length_le (by omega)] at htake
        have hdrop : svgCloseTag.drop (c :: b').length =
            (svgCloseTag ++ t).take (6 - (c :: b').length) := by
          conv_lhs => rw [htake]
          rw [List.drop_left]
        rw [List.take_append_eq_append_take, h6,
          show 6 - (c :: b').length - 6 = 0 from by omega, List.take_zero,
          List.append_nil] at hdrop
        have hk : ∀ k, 1 ≤ k → k < 6 →
            svgCloseTag.drop k ≠ svgCloseTag.take (6 - k) := by
          intro k h1 h2
          interval_cases k <;> decide
        exact hk (c :: b').length (by simp) hlen hdrop
      · -- |c :: b'| ≥ 6: the closing tag would be a prefix of the body,
        -- contradicting the no-occurrence hypothesis
        rw [show 6 - (c :: b').length = 0 from by omega, List.take_zero,
          List.append_nil] at htake
        have hpre : svgCloseTag <+: c :: b' := htake ▸ List.take_prefix 6 (c :: b')
        have hinc : jsIncludes svgCloseTag (c :: b') = true := by
          rw [jsIncludes_iff_exists_drop]
          exact ⟨0, by simpa using List.isPrefixOf_iff_prefix.mpr hpre⟩
        rw [hinc] at hb
        exact Bool.noConfusion hb
    have hshape : (c :: b') ++ (svgCloseTag ++ t) = c :: (b' ++ (svgCloseTag ++ t)) := by
      simp
    rw [hshape] at hnp ⊢
    show findSubIdx svgCloseTag (c :: (b' ++ (svgCloseTag ++ t))) = some (b'.length + 1)
    simp only [findSubIdx]
    rw [if_neg (by simp [hnp]), ih hb']
    rfl

/-! ### Scanner lemmas -/

theorem svgMatchAt_none_of_not_open (s : List Char)
    (h : "<svg".toList.isPrefixOf s = false) : svgMatchAt s = none := by
  simp only [svgMatchAt, h]
  rfl

theorem svgMatchAt_none_of_ne (c : Char) (t : List Char) (hc : c ≠ '<') :
    svgMatchAt (c :: t) = none := by
  apply svgMatchAt_none_of_not_open
  rw [Bool.eq_false_iff]
  intro hcon
  rw [List.isPrefixOf_iff_prefix] at hcon
  rcases hcon with ⟨u, hu⟩
  rw [show "<svg".toList = '<' :: "svg".toList from rfl] at hu
  simp only [List.cons_append, List.cons.injEq] at hu
  exact hc hu.1.symm

/-- The match of the page-container regex at the head of a well-formed
block: attributes without `>` whose first character is not a word character,
and a body containing no `</svg>`. -/
theorem svgMatchAt_block (a b t : List Char)
    (ha1 : ∀ ch ∈ a, ch ≠ '>')
    (ha2 : ∀ ch, a.head? = some ch → isWordChar ch = false)
    (hbody : jsIncludes svgCloseTag b = false) :
    svgMatchAt ("<svg".toList ++ (a ++ '>' :: (b ++ (svgCloseTag ++ t)))) =
      some ("<svg".toList ++ a ++ ['>'], b, t) := by
  have hpre : "<svg".toList.isPrefixOf
      ("<svg".toList ++ (a ++ '>' :: (b ++ (svgCloseTag ++ t)))) = true :=
    isPrefixOf_append_self _ _
  have hdrop4 : ("<svg".toList ++ (a ++ '>' :: (b ++ (svgCloseTag ++ t)))).drop 4 =
      a ++ '>' :: (b ++ (svgCloseTag ++ t)) := by
    simpa using List.drop_left "<svg".toList (a ++ '>' :: (b ++ (svgCloseTag ++ t)))
  have hattrs : (a ++ '>' :: (b ++ (svgCloseTag ++ t))).takeWhile (fun x => x ≠ '>') = a :=
    takeWhile_append_stop a _ '>' ha1
  have hdropa : (a ++ '>' :: (b ++ (svgCloseTag ++ t))).drop a.length =
      '>' :: (b ++ (svgCloseTag ++ t)) :=
    List.drop_left a _
  have hfind : findSubIdx svgCloseTag (b ++ (svgCloseTag ++ t)) = some b.length :=
    findSubIdx_close_append b t hbody
  have htakeb : (b ++ (svgCloseTag ++ t)).take b.length = b := List.take_left b _
  have hdropb : (b ++ (svgCloseTag ++ t)).drop (b.length + 6) = t := by
    rw [List.drop_append, show (6 : Nat) = svgCloseTag.length from by decide]
    exact List.drop_left svgCloseTag t
  cases a with
  | nil =>
    simp only [svgMatchAt, hpre, if_true, hdrop4]
    simp only [List.nil_append] at hattrs hdropa ⊢
    rw [show ('>' :: (b ++ (svgCloseTag ++ t))).takeWhile (fun x => x ≠ '>') = [] from rfl]
    simp only [List.length_nil, List.drop_zero]
    rw [show isWordChar '>' = false from rfl]
    simp only [Bool.false_eq_true, if_false, hfind, htakeb, hdropb]
  | cons ah a' =>
    have hword : isWordChar ah = false := ha2 ah rfl
    simp only [svgMatchAt, hpre, if_true, hdrop4]
    simp only [List.cons_append]
    rw [show ((ah :: (a' ++ '>' :: (b ++ (svgCloseTag ++ t)))).takeWhile
      (fun x => x ≠ '>')) = ah :: a' from by
        simpa [List.cons_append] using hattrs]
    simp only [hword, Bool.false_eq_true, if_false]
    rw [show (ah :: (a' ++ '>' :: (b ++ (svgCloseTag ++ t)))).drop (ah :: a').length =
      '>' :: (b ++ (svgCloseTag ++ t)) from by
        simpa [List.cons_append] using hdropa]
    simp only [hfind, htakeb, hdropb]

theorem svgMatchAt_after_lt (s tag body after : List Char)
    (h : svgMatchAt s = some (tag, body, after)) : after.length < s.length := by
  simp only [svgMatchAt] at h
  split at h
  case isFalse => exact absurd h (by simp)
  case isTrue hpre =>
    split at h
    case h_1 heq => exact absurd h (by simp)
    case h_2 c cr heq =>
      split at h
      case isTrue => exact absurd h (by simp)
      case isFalse hw =>
        split at h
        case h_2 heq2 => exact absurd h (by simp)
        case h_1 r2 heq2 =>
          split at h
          case h_1 => exact absurd h (by simp)
          case h_2 i hfind =>
            injection h with h1
            injection h1 with htag h2
            injection h2 with hbody hafter
            have hs4 : 4 ≤ s.length := by
              by_contra hcon
              have hnil : s.drop 4 = [] := by
                rw [List.drop_eq_nil_iff]; omega
              rw [hnil] at heq
              exact absurd heq (by simp)
            have hlen : (s.drop 4).length = s.length - 4 := List.length_drop 4 s
            rw [heq] at hlen
            have hr2 : ('>' :: r2).length =
                ((s.drop 4).drop ((s.drop 4).takeWhile (fun x => x ≠ '>')).length).length := by
              rw [heq2]
            simp only [List.length_cons, List.length_drop] at hr2
            have hafterlen : after.length ≤ r2.length := by
              rw [← hafter]
              simp [List.length_drop]
            simp only [List.length_cons] at hlen
            omega

theorem svgScanF_fuel : ∀ (n f1 f2 : Nat) (s : List Char), s.length ≤ n →
    s.length ≤ f1 → s.length ≤ f2 → svgScanF f1 s = svgScanF f2 s := by
  intro n
  induction n with
  | zero =>
    intro f1 f2 s hn _ _
    have : s = [] := by
      cases s with
      | nil => rfl
      | cons c t => simp at hn
    subst this
    cases f1 <;> cases f2 <;> rfl
  | succ n ih =>
    intro f1 f2 s hn h1 h2
    cases s with
    | nil => cases f1 <;> cases f2 <;> rfl
    | cons c t =>
      simp only [List.length_cons] at hn h1 h2
      rcases f1 with _ | g1
      · omega
      rcases f2 with _ | g2
      · omega
      simp only [svgScanF]
      rcases hm : svgMatchAt (c :: t) with _ | ⟨⟨tag, body, after⟩⟩
      · exact ih g1 g2 t (by omega) (by omega) (by omega)
      · have hlt := svgMatchAt_after_lt _ _ _ _ hm
        simp only [List.length_cons] at hlt
        show (tag, body) :: svgScanF g1 after = (tag, body) :: svgScanF g2 after
        rw [ih g1 g2 after (by omega) (by omega) (by omega)]

theorem svgMatches_cons_none (c : Char) (t : List Char)
    (h : svgMatchAt (c :: t) = none) : svgMatches (c :: t) = svgMatches t := by
  show svgScanF (c :: t).length (c :: t) = svgScanF t.length t
  simp only [List.length_cons, svgScanF, h]

theorem svgMatches_some (s tag body after : List Char)
    (h : svgMatchAt s = some (tag, body, after)) :
    svgMatches s = (tag, body) :: svgMatches after := by
  cases s with
  | nil =>
    have hnone : svgMatchAt ([] : List Char) = none := by decide
    rw [hnone] at h
    exact absurd h (by simp)
  | cons c t =>
    have hlt := svgMatchAt_after_lt _ _ _ _ h
    show svgScanF (c :: t).length (c :: t) = _
    simp only [List.length_cons, svgScanF, h]
    rw [svgScanF_fuel after.length t.length after.length after (by rfl)
      (by simp only [List.length_cons] at hlt; omega) (by rfl)]
    rfl

theorem svgMatches_skip (pre t : List Char) (hpre : '<' ∉ pre) :
    svgMatches (pre ++ t) = svgMatches t := by
  induction pre with
  | nil => rfl
  | cons c p' ih =>
    have hc : c ≠ '<' := fun h => hpre (h ▸ List.mem_cons_self c p')
    rw [List.cons_append, svgMatches_cons_none c _ (svgMatchAt_none_of_ne c _ hc)]
    exact ih (fun h => hpre (List.mem_cons_of_mem c h))

theorem svgMatches_no_svg (s : List Char) (h : jsIncludes "<svg".toList s = false) :
    svgMatches s = [] := by
  induction s with
  | nil => rfl
  | cons c t ih =>
    simp only [jsIncludes, Bool.or_eq_false_iff] at h
    rw [svgMatches_cons_none c t (svgMatchAt_none_of_not_open _ h.1)]
    exact ih h.2

/-! ### C8: well-formed multi-page markup -/

/-- One well-formed engine page followed by inert separator text: attributes
without `>` starting with a non-word character (or empty), a body without
`</svg>`, and a separator without `<`. -/
def GoodPage (p : List Char × List Char × List Char) : Prop :=
  (∀ ch ∈ p.1, ch ≠ '>') ∧ (∀ ch, p.1.head? = some ch → isWordChar ch = false) ∧
  jsIncludes svgCloseTag p.2.1 = false ∧ '<' ∉ p.2.2

/-- A page container as the engine emits it. -/
def svgBlock (a b : List Char) : List Char :=
  "<svg".toList ++ a ++ '>' :: (b ++ svgCloseTag)

/-- Markup consisting of leading text followed by page containers each
trailed by separator text. -/
def pagesHtml (pre : List Char) (pages : List (List Char × List Char × List Char)) :
    List Char :=
  pre ++ (pages.map (fun p => svgBlock p.1 p.2.1 ++ p.2.2)).flatten

theorem svgMatches_pagesHtml (pages : List (List Char × List Char × List Char)) :
    ∀ pre, '<' ∉ pre → (∀ p ∈ pages, GoodPage p) →
    svgMatches (pagesHtml pre pages) =
      pages.map (fun p => ("<svg".toList ++ p.1 ++ ['>'], p.2.1)) := by
  induction pages with
  | nil =>
    intro pre hpre _
    simp only [pagesHtml, List.map_nil, List.flatten_nil, List.append_nil]
    exact svgMatches_no_svg pre
      (jsIncludes_eq_false_of_not_mem _ pre '<' rfl hpre)
  | cons p rest ih =>
    intro pre hpre hgood
    rcases p with ⟨a, b, sep⟩
    have hg := hgood (a, b, sep) (List.mem_cons_self _ _)
    rcases hg with ⟨ha1, ha2, hbody, hsep⟩
    have hshape : pagesHtml pre ((a, b, sep) :: rest) =
        pre ++ ("<svg".toList ++ (a ++ '>' :: (b ++ (svgCloseTag ++ pagesHtml sep rest)))) := by
      simp only [pagesHtml, List.map_cons, List.flatten_cons, svgBlock]
      simp [List.append_assoc]
    rw [hshape, svgMatches_skip pre _ hpre,
      svgMatches_some _ _ _ _ (svgMatchAt_block a b (pagesHtml sep rest) ha1 ha2 hbody),
      ih sep hsep (fun q hq => hgood q (List.mem_cons_of_mem _ hq))]
    rfl

theorem svgOpenTagFirst_tag (a rest' : List Char) (ha : ∀ ch ∈ a, ch ≠ '>') :
    svgOpenTagFirst (("<svg".toList ++ a ++ ['>']) ++ rest') =
      some ("<svg".toList ++ a ++ ['>']) := by
  have hshape : ("<svg".toList ++ a ++ ['>']) ++ rest' =
      '<' :: ("svg".toList ++ (a ++ '>' :: rest')) := by
    simp [List.append_assoc]
  rw [hshape]
  have hfull : '<' :: ("svg".toList ++ (a ++ '>' :: rest')) =
      "<svg".toList ++ (a ++ '>' :: rest') := by simp
  simp only [svgOpenTagFirst]
  rw [hfull]
  have htake : ("<svg".toList ++ (a ++ '>' :: rest')).take 4 = "<svg".toList := by
    simpa using List.take_left "<svg".toList (a ++ '>' :: rest')
  have hdrop : ("<svg".toList ++ (a ++ '>' :: rest')).drop 4 = a ++ '>' :: rest' := by
    simpa using List.drop_left "<svg".toList (a ++ '>' :: rest')
  rw [htake, hdrop]
  rw [if_pos (by decide)]
  rw [takeWhile_append_stop a rest' '>' ha, List.drop_left a _]
  simp [List.append_assoc]

/-- C8: `composeToSVG` merges every page body, in order, into a single
container whose opening tag reproduces the first container's opening
attributes; and markup with no `<svg` container at all yields the empty
string rather than an exception. -/
theorem c8_compose_merges_pages :
    (∀ s : List Char, jsIncludes "<svg".toList s = false → composeToSVG s = []) ∧
    (∀ (pre a b sep : List Char) (rest : List (List Char × List Char × List Char)),
      '<' ∉ pre → (∀ p ∈ (a, b, sep) :: rest, GoodPage p) →
      composeToSVG (pagesHtml pre ((a, b, sep) :: rest)) =
        ("<svg".toList ++ a ++ ['>']) ++
          ((((a, b, sep) :: rest).map (fun p => p.2.1)).flatten ++ svgCloseTag)) := by
  constructor
  · intro s h
    rw [composeToSVG, svgMatches_no_svg s h]
  · intro pre a b sep rest hpre hgood
    have hmatches := svgMatches_pagesHtml ((a, b, sep) :: rest) pre hpre hgood
    rw [composeToSVG, hmatches]
    simp only [List.map_cons]
    have hga := (hgood (a, b, sep) (List.mem_cons_self _ _)).1
    rw [show ("<svg".toList ++ a ++ ['>']) ++ b ++ svgCloseTag =
      ("<svg".toList ++ a ++ ['>']) ++ (b ++ svgCloseTag) from by simp [List.append_assoc]]
    rw [svgOpenTagFirst_tag a (b ++ svgCloseTag) hga]
    simp only [List.map_map, Function.comp_def, List.append_assoc]

/-! ### C9: idempotence analysis of `composeToSVG` -/

/-- Every match the scanner emits is well formed: the tag is `<svg` plus
`>`-free attributes whose first character is not a word character, and the
(lazily matched) body contains no `</svg>`. -/
theorem svgMatchAt_shape (s tag body after : List Char)
    (h : svgMatchAt s = some (tag, body, after)) :
    ∃ a, tag = "<svg".toList ++ a ++ ['>'] ∧ (∀ ch ∈ a, ch ≠ '>') ∧
      (∀ ch, a.head? = some ch → isWordChar ch = false) ∧
      jsIncludes svgCloseTag body = false := by
  simp only [svgMatchAt] at h
  split at h
  case isFalse => exact absurd h (by simp)
  case isTrue hpre =>
    split at h
    case h_1 heq => exact absurd h (by simp)
    case h_2 c cr heq =>
      split at h
      case isTrue => exact absurd h (by simp)
      case isFalse hw =>
        split at h
        case h_2 heq2 => exact absurd h (by simp)
        case h_1 r2 heq2 =>
          split at h
          case h_1 => exact absurd h (by simp)
          case h_2 i hfind =>
            injection h with h1
            injection h1 with htag h2
            injection h2 with hbody hafter
            refine ⟨(s.drop 4).takeWhile (fun x => x ≠ '>'), htag.symm, ?_, ?_, ?_⟩
            · intro ch hch
              have := List.mem_takeWhile_imp hch
              simpa using this
            · intro ch hch
              rw [heq, List.takeWhile_cons] at hch
              split at hch
              · injection hch with hc
                subst hc
                exact Bool.eq_false_iff.mpr hw
              · exact absurd hch (by simp)
            · rw [← hbody]
              rw [Bool.eq_false_iff]
              intro hcon
              rw [jsIncludes_iff_exists_drop] at hcon
              rcases hcon with ⟨j, hj⟩
              by_cases hji : j < i
              · rw [List.drop_take] at hj
                have hpre2 : svgCloseTag <+: (r2.drop j).take (i - j) :=
                  List.isPrefixOf_iff_prefix.mp hj
                have hpre3 : svgCloseTag <+: r2.drop j :=
                  hpre2.trans (List.take_prefix _ _)
                have := findSubIdx_min svgCloseTag r2 i hfind j hji
                rw [List.isPrefixOf_iff_prefix.mpr hpre3] at this
                exact Bool.noConfusion this
              · have hnil : (r2.take i).drop j = [] := by
                  rw [List.drop_eq_nil_iff]
                  have := List.length_take_le i r2
                  omega
                rw [hnil] at hj
                cases hcl : svgCloseTag with
                | nil => exact absurd hcl (by decide)
                | cons x xs =>
                  rw [hcl] at hj
                  simp [List.isPrefixOf] at hj

theorem svgScanF_shape (fuel : Nat) :
    ∀ (s : List Char) (m : List Char × List Char), m ∈ svgScanF fuel s →
    ∃ a, m.1 = "<svg".toList ++ a ++ ['>'] ∧ (∀ ch ∈ a, ch ≠ '>') ∧
      (∀ ch, a.head? = some ch → isWordChar ch = false) ∧
      jsIncludes svgCloseTag m.2 = false := by
  induction fuel with
  | zero => intro s m hm; simp [svgScanF] at hm
  | succ fuel ih =>
    intro s m hm
    cases s with
    | nil => simp [svgScanF] at hm
    | cons c t =>
      simp only [svgScanF] at hm
      rcases hmat : svgMatchAt (c :: t) with _ | ⟨⟨tag, body, after⟩⟩
      · rw [hmat] at hm
        exact ih t m hm
      · rw [hmat] at hm
        rcases List.mem_cons.mp hm with h1 | h1
        · subst h1
          exact svgMatchAt_shape _ _ _ _ hmat
        · exact ih after m h1

theorem svgMatches_shape (s : List Char) (m : List Char × List Char)
    (hm : m ∈ svgMatches s) :
    ∃ a, m.1 = "<svg".toList ++ a ++ ['>'] ∧ (∀ ch ∈ a, ch ≠ '>') ∧
      (∀ ch, a.head? = some ch → isWordChar ch = false) ∧
      jsIncludes svgCloseTag m.2 = false :=
  svgScanF_shape s.length s m hm

/-- C9 amended: none of the three post-processing steps is idempotent on
arbitrary markup (see the counterexample), but multi-page composition *is*
idempotent whenever the markup contains at most one page container — in
particular `composeToSVG`'s own output, a single merged container, is a
fixed point, so running composition twice in that regime equals running it
once. -/
theorem c9_compose_idempotent_single (s : List Char)
    (h : (svgMatches s).length ≤ 1) :
    composeToSVG (composeToSVG s) = composeToSVG s := by
  rcases hm : svgMatches s with _ | ⟨⟨tag, body⟩, rest⟩
  · have hcs : composeToSVG s = [] := by
      rw [composeToSVG, hm]
    rw [hcs]
    decide
  · rw [hm] at h
    simp only [List.length_cons] at h
    have hrest : rest = [] := by
      cases rest with
      | nil => rfl
      | cons x xs => simp at h
    subst hrest
    rcases svgMatches_shape s (tag, body) (hm ▸ List.mem_cons_self _ _) with
      ⟨a, htag0, ha1, ha2, hbody0⟩
    have htag : tag = "<svg".toList ++ a ++ ['>'] := htag0
    have hbody : jsIncludes svgCloseTag body = false := hbody0
    have hcs : composeToSVG s = tag ++ (body ++ svgCloseTag) := by
      rw [composeToSVG, hm]
      simp only [List.map_cons, List.map_nil, List.flatten_cons, List.flatten_nil,
        List.append_nil]
      rw [htag, show ("<svg".toList ++ a ++ ['>']) ++ body ++ svgCloseTag =
        ("<svg".toList ++ a ++ ['>']) ++ (body ++ svgCloseTag) from by
          simp [List.append_assoc]]
      rw [svgOpenTagFirst_tag a (body ++ svgCloseTag) ha1]
      simp [List.append_assoc]
    rw [hcs]
    have hshape : tag ++ (body ++ svgCloseTag) =
        "<svg".toList ++ (a ++ '>' :: (body ++ (svgCloseTag ++ []))) := by
      rw [htag]
      simp [List.append_assoc]
    have hmatch2 : svgMatches (tag ++ (body ++ svgCloseTag)) = [(tag, body)] := by
      rw [hshape, svgMatches_some _ _ _ _ (svgMatchAt_block a body [] ha1 ha2 hbody)]
      rw [show svgMatches [] = [] from rfl, htag]
    rw [composeToSVG, hmatch2]
    simp only [List.map_cons, List.map_nil, List.flatten_cons, List.flatten_nil,
      List.append_nil]
    rw [htag, show ("<svg".toList ++ a ++ ['>']) ++ body ++ svgCloseTag =
      ("<svg".toList ++ a ++ ['>']) ++ (body ++ svgCloseTag) from by
        simp [List.append_assoc]]
    rw [svgOpenTagFirst_tag a (body ++ svgCloseTag) ha1]
    simp [List.append_assoc]

/-- Witness for `c9_compose_idempotent_single` at concrete single-container
markup. -/
theorem c9_compose_idempotent_single_witness :
    composeToSVG (composeToSVG "x<svg w>body</svg>y".toList) =
      composeToSVG "x<svg w>body</svg>y".toList := by
  exact c9_compose_idempotent_single "x<svg w>body</svg>y".toList (by decide)

/-- Witness for `c8_compose_merges_pages` at concrete two-page markup. -/
theorem c8_compose_merges_pages_witness :
    composeToSVG "no containers at all".toList = [] ∧
    composeToSVG (pagesHtml [] [(" a=\"1\"".toList, "x".toList, "junk".toList),
      (" b".toList, "y".toList, [])]) =
      ("<svg".toList ++ " a=\"1\"".toList ++ ['>']) ++
        (("x".toList ++ "y".toList ++ []) ++ svgCloseTag) := by
  constructor
  · exact c8_compose_merges_pages.1 _ (by decide)
  · have h := c8_compose_merges_pages.2 [] " a=\"1\"".toList "x".toList "junk".toList
      [(" b".toList, "y".toList, [])] (by decide)
      (by
        intro p hp
        rcases List.mem_cons.mp hp with h1 | h1
        · subst h1
          refine ⟨by decide, by decide, by decide, by decide⟩
        · rcases List.mem_cons.mp h1 with h2 | h2
          · subst h2
            refine ⟨by decide, by decide, by decide, by decide⟩
          · simp at h2)
    simpa using h

/-! ## C4: unsupported-character markers

The fallback directive of §C7 makes the engine typeset `[U+XXXX]` for an
unsupported character; the dvi-to-markup converter emits those glyphs as
private-use-area character entities `&#xf0hh;` (`hh` the ASCII code of the
glyph).  `replaceNotSupportedCharMarkers` (run-tex variant 2, lines 485-516)
matches the entity sequence of a whole marker — tolerating non-entity text
interleaved between the entities — extracts the eight `&#xf0hh;` entities of
the match, rebuilds `U+` plus the four digit characters, and replaces the
match by `fromUnicode` of that string. -/

deriving instance DecidableEq for Except

/-- The numeric value of one hexadecimal digit character (either case);
meaningful only on `isHexDigitCI` characters. -/
def hexValCI (c : Char) : Nat :=
  if c ≤ '9' then c.toNat - 48 else if c ≤ 'F' then c.toNat - 55 else c.toNat - 87

/-- Does a private-use-area-style entity `&#xf<hex><hex><hex>;` start here?
This is the (case-insensitive) class of the negative lookahead
`&(?!(#xf[0-9a-f]{3};))`: the lazy gaps of the marker regex may consume any
character except the start of such an entity. -/
def isPUAEntityAt : List Char → Bool
  | '&' :: '#' :: x :: f :: h1 :: h2 :: h3 :: ';' :: _ =>
    toLowerAscii x = 'x' && toLowerAscii f = 'f' &&
    isHexDigitCI h1 && isHexDigitCI h2 && isHexDigitCI h3
  | _ => false

/-- Parse an entity of the shape `&#xf0<hex><hex>;` (case-insensitively) at
the head of the input, returning the low byte (the `& 0xFF` of the parsed
`0xf0hh` value, as taken by the callback) and the rest. -/
def parseF0Entity : List Char → Option (Nat × List Char)
  | '&' :: '#' :: x :: f :: z :: h1 :: h2 :: ';' :: rest =>
    if toLowerAscii x = 'x' && toLowerAscii f = 'f' && z = '0' &&
        isHexDigitCI h1 && isHexDigitCI h2 then
      some (16 * hexValCI h1 + hexValCI h2, rest)
    else none
  | _ => none

/-- Consume one lazy gap (`anyNotPUA`) and then one `&#xf0hh;` entity: the
gap may extend over any character that does not start a PUA-style entity,
and the first PUA-style entity reached must have the `f0` form.  Mirrors the
backtracking behaviour of the lazy regex, which is deterministic because the
gap can never consume an entity. -/
def gapThenF0 : List Char → Option (Nat × List Char)
  | [] => none
  | c :: rest =>
    if isPUAEntityAt (c :: rest) then parseF0Entity (c :: rest)
    else gapThenF0 rest

/-- `gapThenF0` with a required byte value (for the literal entities
`&#xf05b;`, `&#xf055;`, `&#xf02b;`, `&#xf05d;` of the pattern). -/
def gapThenF0Req (b : Nat) (s : List Char) : Option (List Char) :=
  match gapThenF0 s with
  | some (b', r) => if b' = b then some r else none
  | none => none

/-- Attempt the whole marker regex at the head of `s`:
`&#xf05b;` (`[`), gap, `&#xf055;` (`U`), gap, `&#xf02b;` (`+`), four
gap-separated `&#xf0hh;` entities, gap, `&#xf05d;` (`]`).  On success,
return the byte values of all eight entities of the match, in order, and
the remainder after the match. -/
def tryMarkerMatch (s : List Char) : Option (List Nat × List Char) :=
  match parseF0Entity s with
  | none => none
  | some (b0, r0) =>
    if b0 = 91 then
      match gapThenF0Req 85 r0 with
      | none => none
      | some r1 =>
        match gapThenF0Req 43 r1 with
        | none => none
        | some r2 =>
          match gapThenF0 r2 with
          | none => none
          | some (d1, r3) =>
            match gapThenF0 r3 with
            | none => none
            | some (d2, r4) =>
              match gapThenF0 r4 with
              | none => none
              | some (d3, r5) =>
                match gapThenF0 r5 with
                | none => none
                | some (d4, r6) =>
                  match gapThenF0Req 93 r6 with
                  | none => none
                  | some r7 => some ([91, 85, 43, d1, d2, d3, d4, 93], r7)
    else none

/-- The leftmost hexadecimal run captured by
`/(?:U\+|0x)?([0-9A-Fa-f]+)/` (`fromUnicode`, lines 463-472): an optional
`U+` or `0x` prefix — taken greedily when a hex digit follows — then a
maximal run of hex digits, searched from each position left to right. -/
def findHexRun : List Char → Option (List Char)
  | [] => none
  | 'U' :: '+' :: d :: r =>
    if isHexDigitCI d then some ((d :: r).takeWhile isHexDigitCI)
    else findHexRun ('+' :: d :: r)
  | '0' :: 'x' :: d :: r =>
    if isHexDigitCI d then some ((d :: r).takeWhile isHexDigitCI)
    else some ['0']
  | c :: rest =>
    if isHexDigitCI c then some ((c :: rest).takeWhile isHexDigitCI)
    else findHexRun rest

/-- `fromUnicode` (lines 463-472): find the code point in the string and
build the character.  `String.fromCodePoint` raises for values above
`0x10FFFF`; lone surrogate values, which JavaScript strings can represent
but Lean `Char` cannot, are mapped to an error as well (no marker ever
produces one in the theorems below). -/
def fromUnicode (code : List Char) : Except String Char :=
  match findHexRun code with
  | none => .error ("Invalid Unicode code point: " ++ String.mk code)
  | some run =>
    let n := run.foldl (fun acc c => 16 * acc + hexValCI c) 0
    if n < 0xD800 ∨ (0xDFFF < n ∧ n < 0x110000) then .ok (Char.ofNat n)
    else .error "RangeError: invalid code point"

/-- One pass of `str.replace(regex, cb)` with the marker regex: walk the
string; at each position try the full marker match; on a match run the
callback — extract the eight entity bytes (`entities.length != 8` keeps the
match unchanged), take entities 3..6, turn each byte into its (upper-cased)
character, and replace the whole match by `fromUnicode('U+' + digits)` —
then continue after the match. -/
def replaceMarkersF : Nat → List Char → Except String (List Char)
  | 0, s => .ok s
  | _ + 1, [] => .ok []
  | fuel + 1, c :: rest =>
    match tryMarkerMatch (c :: rest) with
    | some (entities, after) =>
      if entities.length ≠ 8 then
        (replaceMarkersF fuel after).map
          (fun r => (c :: rest).take ((c :: rest).length - after.length) ++ r)
      else
        let digits := (entities.drop 3).take 4
        let cs := digits.map (fun b => toUpperAscii (Char.ofNat (b % 256)))
        match fromUnicode ('U' :: '+' :: cs) with
        | .error e => .error e
        | .ok ch => (replaceMarkersF fuel after).map (fun r => ch :: r)
    | none => (replaceMarkersF fuel rest).map (fun r => c :: r)

/-- `replaceNotSupportedCharMarkers` (lines 485-516). -/
def replaceNotSupportedCharMarkers (s : List Char) : Except String (List Char) :=
  replaceMarkersF s.length s

/-- Modelled from the spec: the engine renders the fallback directive of an
unsupported character as the literal marker `[U+XXXX]` (§4.3), and the
binary-to-markup converter encodes each of its glyphs as the private-use
entity `&#xf0hh;` with `hh` the glyph's ASCII code (the `match PUA
[U+xxxx]` comment above the regex, line 486). -/
def puaEntity (ch : Char) : List Char :=
  "&#xf0".toList ++ hexByteLower ch.toNat ++ [';']

/-- Modelled from the spec: the entity sequence the converter emits for the
whole marker `[U+XXXX]` of character `c`. -/
def markerEntities (c : Char) : List (List Char) :=
  ('[' :: getUnicode c ++ [']']).map puaEntity

/-- Interleave the marker's entities with (possibly empty) gap strings, as
an upstream encoder may split the marker. -/
def weave : List (List Char) → List (List Char) → List Char
  | [], _ => []
  | [e], _ => e
  | e :: es, [] => e ++ weave es []
  | e :: es, g :: gs => e ++ g ++ weave es gs

/-! ### Parsing lemmas for the marker machinery -/

theorem hexValCI_hexDigitLower (m : Nat) (hm : m < 16) :
    hexValCI (hexDigitLower m) = m := by
  interval_cases m <;> decide

theorem isHexDigitCI_hexDigitLower (m : Nat) (hm : m < 16) :
    isHexDigitCI (hexDigitLower m) = true := by
  interval_cases m <;> decide

theorem hexByteLower_two_digits (b : Nat) (h1 : 16 ≤ b) (h2 : b < 256) :
    hexByteLower b = [hexDigitLower (b / 16), hexDigitLower (b % 16)] := by
  have hb0 : b ≠ 0 := by omega
  have hb16 : ¬b < 16 := by omega
  simp only [hexByteLower, hb0, hb16, if_false, padStart]
  rw [Nat.mod_eq_of_lt (by omega : b / 16 < 16)]
  simp

theorem parseF0Entity_puaEntity (ch : Char) (h1 : 16 ≤ ch.toNat) (h2 : ch.toNat < 256)
    (rest : List Char) :
    parseF0Entity (puaEntity ch ++ rest) = some (ch.toNat, rest) := by
  have hshape : puaEntity ch ++ rest =
      '&' :: '#' :: 'x' :: 'f' :: '0' :: hexDigitLower (ch.toNat / 16) ::
        hexDigitLower (ch.toNat % 16) :: ';' :: rest := by
    simp [puaEntity, hexByteLower_two_digits ch.toNat h1 h2]
  rw [hshape]
  simp only [parseF0Entity]
  rw [if_pos]
  · rw [hexValCI_hexDigitLower _ (by omega), hexValCI_hexDigitLower _ (Nat.mod_lt _ (by omega))]
    rw [Nat.div_add_mod]
  · simp only [Bool.and_eq_true]
    refine ⟨⟨⟨⟨by decide, by decide⟩, by decide⟩,
      isHexDigitCI_hexDigitLower _ (by omega)⟩,
      isHexDigitCI_hexDigitLower _ (Nat.mod_lt _ (by omega))⟩

theorem isPUAEntityAt_puaEntity (ch : Char) (h1 : 16 ≤ ch.toNat) (h2 : ch.toNat < 256)
    (rest : List Char) :
    isPUAEntityAt (puaEntity ch ++ rest) = true := by
  have hshape : puaEntity ch ++ rest =
      '&' :: '#' :: 'x' :: 'f' :: '0' :: hexDigitLower (ch.toNat / 16) ::
        hexDigitLower (ch.toNat % 16) :: ';' :: rest := by
    simp [puaEntity, hexByteLower_two_digits ch.toNat h1 h2]
  rw [hshape]
  simp only [isPUAEntityAt, Bool.and_eq_true]
  refine ⟨⟨⟨⟨by decide, by decide⟩, by decide⟩,
    isHexDigitCI_hexDigitLower _ (by omega)⟩,
    isHexDigitCI_hexDigitLower _ (Nat.mod_lt _ (by omega))⟩

theorem isPUAEntityAt_cons_ne (c : Char) (t : List Char) (hc : c ≠ '&') :
    isPUAEntityAt (c :: t) = false := by
  rw [isPUAEntityAt.eq_def]
  split
  case h_1 x f h1 h2 h3 tail heq =>
    exfalso
    injection heq with hch
    exact hc hch
  case h_2 => rfl

theorem parseF0Entity_cons_ne (c : Char) (t : List Char) (hc : c ≠ '&') :
    parseF0Entity (c :: t) = none := by
  rw [parseF0Entity.eq_def]
  split
  case h_1 x f z h1 h2 tail heq =>
    exfalso
    injection heq with hch
    exact hc hch
  case h_2 => rfl

theorem gapThenF0_skip (g t : List Char) (hg : '&' ∉ g) :
    gapThenF0 (g ++ t) = gapThenF0 t := by
  induction g with
  | nil => rfl
  | cons c g' ih =>
    have hc : c ≠ '&' := fun h => hg (h ▸ List.mem_cons_self c g')
    rw [List.cons_append, gapThenF0,
      if_neg (by rw [isPUAEntityAt_cons_ne c _ hc]; simp)]
    exact ih (fun h => hg (List.mem_cons_of_mem c h))

theorem gapThenF0_entity (ch : Char) (h1 : 16 ≤ ch.toNat) (h2 : ch.toNat < 256)
    (rest : List Char) :
    gapThenF0 (puaEntity ch ++ rest) = some (ch.toNat, rest) := by
  have hne : puaEntity ch ++ rest ≠ [] := by simp [puaEntity]
  rcases hsh : puaEntity ch ++ rest with _ | ⟨c, t⟩
  · exact absurd hsh hne
  · rw [gapThenF0, ← hsh, if_pos (isPUAEntityAt_puaEntity ch h1 h2 rest)]
    exact parseF0Entity_puaEntity ch h1 h2 rest

theorem gapThenF0_skip_entity (g : List Char) (hg : '&' ∉ g) (ch : Char)
    (h1 : 16 ≤ ch.toNat) (h2 : ch.toNat < 256) (rest : List Char) :
    gapThenF0 (g ++ (puaEntity ch ++ rest)) = some (ch.toNat, rest) := by
  rw [gapThenF0_skip g _ hg, gapThenF0_entity ch h1 h2 rest]

theorem parseF0Entity_length (s : List Char) (b : Nat) (r : List Char)
    (h : parseF0Entity s = some (b, r)) : r.length + 8 = s.length := by
  rw [parseF0Entity.eq_def] at h
  split at h
  · split at h
    · injection h with h'
      injection h' with hb hr
      subst hr
      simp
    · exact absurd h (by simp)
  · exact absurd h (by simp)

theorem gapThenF0_length (s : List Char) (b : Nat) (r : List Char)
    (h : gapThenF0 s = some (b, r)) : r.length < s.length := by
  induction s with
  | nil => simp [gapThenF0] at h
  | cons c t ih =>
    rw [gapThenF0] at h
    split at h
    · have := parseF0Entity_length _ _ _ h
      simp only [List.length_cons] at this ⊢
      omega
    · have := ih h
      simp only [List.length_cons]
      omega

theorem gapThenF0Req_length (b : Nat) (s r : List Char)
    (h : gapThenF0Req b s = some r) : r.length < s.length := by
  rw [gapThenF0Req] at h
  split at h
  case h_1 b' r' heq =>
    split at h
    · injection h with h'
      subst h'
      exact gapThenF0_length s b' r' heq
    · exact absurd h (by simp)
  case h_2 => exact absurd h (by simp)

theorem tryMarkerMatch_after_lt (s : List Char) (entities : List Nat) (after : List Char)
    (h : tryMarkerMatch s = some (entities, after)) : after.length < s.length := by
  rw [tryMarkerMatch] at h
  split at h
  case h_1 => exact absurd h (by simp)
  case h_2 b0 r0 heq0 =>
    split at h
    case isFalse => exact absurd h (by simp)
    case isTrue hb0 =>
      have hl0 : r0.length + 8 = s.length := parseF0Entity_length _ _ _ heq0
      split at h
      case h_1 => exact absurd h (by simp)
      case h_2 r1 heq1 =>
        have hl1 := gapThenF0Req_length _ _ _ heq1
        split at h
        case h_1 => exact absurd h (by simp)
        case h_2 r2 heq2 =>
          have hl2 := gapThenF0Req_length _ _ _ heq2
          split at h
          case h_1 => exact absurd h (by simp)
          case h_2 d1 r3 heq3 =>
            have hl3 := gapThenF0_length _ _ _ heq3
            split at h
            case h_1 => exact absurd h (by simp)
            case h_2 d2 r4 heq4 =>
              have hl4 := gapThenF0_length _ _ _ heq4
              split at h
              case h_1 => exact absurd h (by simp)
              case h_2 d3 r5 heq5 =>
                have hl5 := gapThenF0_length _ _ _ heq5
                split at h
                case h_1 => exact absurd h (by simp)
                case h_2 d4 r6 heq6 =>
                  have hl6 := gapThenF0_length _ _ _ heq6
                  split at h
                  case h_1 => exact absurd h (by simp)
                  case h_2 r7 heq7 =>
                    have hl7 := gapThenF0Req_length _ _ _ heq7
                    injection h with h'
                    injection h' with hent haft
                    subst haft
                    omega

theorem tryMarkerMatch_cons_ne (c : Char) (t : List Char) (hc : c ≠ '&') :
    tryMarkerMatch (c :: t) = none := by
  rw [tryMarkerMatch, parseF0Entity_cons_ne c t hc]

theorem replaceMarkersF_fuel : ∀ (n f1 f2 : Nat) (s : List Char), s.length ≤ n →
    s.length ≤ f1 → s.length ≤ f2 → replaceMarkersF f1 s = replaceMarkersF f2 s := by
  intro n
  induction n with
  | zero =>
    intro f1 f2 s hn _ _
    have hs : s = [] := by
      cases s with
      | nil => rfl
      | cons c t => simp at hn
    subst hs
    cases f1 <;> cases f2 <;> rfl
  | succ n ih =>
    intro f1 f2 s hn h1 h2
    cases s with
    | nil => cases f1 <;> cases f2 <;> rfl
    | cons c t =>
      simp only [List.length_cons] at hn h1 h2
      rcases f1 with _ | g1
      · omega
      rcases f2 with _ | g2
      · omega
      simp only [replaceMarkersF]
      rcases hm : tryMarkerMatch (c :: t) with _ | ⟨⟨entities, after⟩⟩
      · show (replaceMarkersF g1 t).map (fun r => c :: r) =
          (replaceMarkersF g2 t).map (fun r => c :: r)
        rw [ih g1 g2 t (by omega) (by omega) (by omega)]
      · have hlt := tryMarkerMatch_after_lt _ _ _ hm
        simp only [List.length_cons] at hlt
        dsimp only
        rw [ih g1 g2 after (by omega) (by omega) (by omega)]

theorem replaceNSCM_cons_none (c : Char) (t : List Char)
    (h : tryMarkerMatch (c :: t) = none) :
    replaceNotSupportedCharMarkers (c :: t) =
      (replaceNotSupportedCharMarkers t).map (fun r => c :: r) := by
  show replaceMarkersF (c :: t).length (c :: t) = _
  simp only [List.length_cons, replaceMarkersF, h]
  rfl

theorem replaceNSCM_skip (a t : List Char) (ha : '&' ∉ a) :
    replaceNotSupportedCharMarkers (a ++ t) =
      (replaceNotSupportedCharMarkers t).map (fun r => a ++ r) := by
  induction a with
  | nil =>
    simp only [List.nil_append]
    cases h : replaceNotSupportedCharMarkers t <;> simp [Except.map]
  | cons c a' ih =>
    have hc : c ≠ '&' := fun h => ha (h ▸ List.mem_cons_self c a')
    rw [List.cons_append, replaceNSCM_cons_none c _ (tryMarkerMatch_cons_ne c _ hc),
      ih (fun h => ha (List.mem_cons_of_mem c h))]
    cases h : replaceNotSupportedCharMarkers t <;> simp [Except.map]

/-! ### The digits of `getUnicode` and their roundtrip -/

theorem hexValCI_hexDigitUpper (m : Nat) (hm : m < 16) :
    hexValCI (hexDigitUpper m) = m := by
  interval_cases m <;> decide

theorem mem_hexDigitsUpperF (fuel n : Nat) :
    ∀ ch ∈ hexDigitsUpperF fuel n, ∃ m, m < 16 ∧ ch = hexDigitUpper m := by
  induction fuel generalizing n with
  | zero => intro ch hch; simp [hexDigitsUpperF] at hch
  | succ fuel ih =>
    intro ch hch
    simp only [hexDigitsUpperF] at hch
    by_cases hz : n = 0
    · simp [hz] at hch
    · rw [if_neg hz] at hch
      rcases List.mem_append.mp hch with h | h
      · exact ih (n / 16) ch h
      · simp at h
        exact ⟨n % 16, Nat.mod_lt n (by omega), h⟩

theorem hexDigitsUpperF_length_le (fuel : Nat) :
    ∀ n k, n < 16 ^ k → (hexDigitsUpperF fuel n).length ≤ k := by
  induction fuel with
  | zero => intro n k _; simp [hexDigitsUpperF]
  | succ fuel ih =>
    intro n k hk
    simp only [hexDigitsUpperF]
    by_cases hz : n = 0
    · simp [hz]
    · rw [if_neg hz]
      cases k with
      | zero => simp at hk; omega
      | succ k' =>
        have hdiv : n / 16 < 16 ^ k' := by
          rw [Nat.div_lt_iff_lt_mul (by omega)]
          calc n < 16 ^ (k' + 1) := hk
          _ = 16 ^ k' * 16 := by ring
        have := ih (n / 16) k' hdiv
        simp only [List.length_append, List.length_cons, List.length_nil]
        omega

theorem hexDigitsUpperF_foldl (fuel : Nat) :
    ∀ n acc, n ≤ fuel →
    (hexDigitsUpperF fuel n).foldl (fun a c => 16 * a + hexValCI c) acc =
      acc * 16 ^ (hexDigitsUpperF fuel n).length + n := by
  induction fuel with
  | zero =>
    intro n acc hn
    have : n = 0 := by omega
    simp [hexDigitsUpperF, this]
  | succ fuel ih =>
    intro n acc hn
    simp only [hexDigitsUpperF]
    by_cases hz : n = 0
    · simp [hz]
    · rw [if_neg hz]
      have hdiv : n / 16 ≤ fuel := by
        have : n / 16 < n := Nat.div_lt_self (by omega) (by omega)
        omega
      rw [List.foldl_append, ih (n / 16) acc hdiv]
      simp only [List.foldl_cons, List.foldl_nil, List.length_append,
        List.length_cons, List.length_nil]
      rw [hexValCI_hexDigitUpper _ (Nat.mod_lt n (by omega))]
      have hmod := Nat.div_add_mod n 16
      ring_nf
      omega

theorem foldl_hex_zeros (k : Nat) :
    (List.replicate k '0').foldl (fun a c => 16 * a + hexValCI c) 0 = 0 := by
  induction k with
  | zero => rfl
  | succ k ih => simpa [List.replicate_succ, hexValCI] using ih

/-- The facts needed about each character of the zero-padded uppercase hex
rendering of a code point. -/
theorem mem_padHex_facts (n : Nat) :
    ∀ ch ∈ padStart 4 '0' (toHexUpper n),
      16 ≤ ch.toNat ∧ ch.toNat < 256 ∧ isHexDigitCI ch = true ∧
      toUpperAscii ch = ch ∧ Char.ofNat ch.toNat = ch ∧ ch ≠ '&' := by
  intro ch hch
  have hdig : ch = '0' ∨ ∃ m, m < 16 ∧ ch = hexDigitUpper m := by
    simp only [padStart] at hch
    rcases List.mem_append.mp hch with h | h
    · exact Or.inl (List.eq_of_mem_replicate h)
    · simp only [toHexUpper] at h
      by_cases hz : n = 0
      · rw [hz] at h; simp at h; exact Or.inl h
      · rw [if_neg hz] at h
        exact Or.inr (mem_hexDigitsUpperF n n ch h)
  rcases hdig with h | ⟨m, hm, h⟩
  · subst h; refine ⟨by decide, by decide, by decide, by decide, by decide, by decide⟩
  · subst h
    interval_cases m <;> exact ⟨by decide, by decide, by decide, by decide, by decide, by decide⟩

theorem padHex_length (n : Nat) (hn : n < 65536) :
    (padStart 4 '0' (toHexUpper n)).length = 4 := by
  have hle : (toHexUpper n).length ≤ 4 := by
    simp only [toHexUpper]
    by_cases hz : n = 0
    · simp [hz]
    · rw [if_neg hz]
      exact hexDigitsUpperF_length_le n n 4 (by omega)
  simp only [padStart, List.length_append, List.length_replicate]
  omega

theorem takeWhile_eq_self_of_all (p : Char → Bool) (l : List Char)
    (h : ∀ x ∈ l, p x = true) : l.takeWhile p = l := by
  induction l with
  | nil => rfl
  | cons c cs ih =>
    rw [List.takeWhile_cons, if_pos (h c (List.mem_cons_self c cs))]
    rw [ih (fun x hx => h x (List.mem_cons_of_mem c hx))]

theorem padHex_foldl (n : Nat) (hn : n < 65536) :
    (padStart 4 '0' (toHexUpper n)).foldl (fun a c => 16 * a + hexValCI c) 0 = n := by
  simp only [padStart, List.foldl_append, foldl_hex_zeros]
  simp only [toHexUpper]
  by_cases hz : n = 0
  · simp [hz, hexValCI]
  · rw [if_neg hz]
    rw [hexDigitsUpperF_foldl n n 0 (by omega)]
    simp

theorem fromUnicode_getUnicode (c : Char) (hbmp : c.toNat < 65536) :
    fromUnicode ('U' :: '+' :: padStart 4 '0' (toHexUpper c.toNat)) = .ok c := by
  have hlen := padHex_length c.toNat hbmp
  rcases hD : padStart 4 '0' (toHexUpper c.toNat) with _ | ⟨d, r⟩
  · rw [hD] at hlen; simp at hlen
  · have hfacts := mem_padHex_facts c.toNat
    rw [hD] at hfacts
    have hdhex : isHexDigitCI d = true := (hfacts d (List.mem_cons_self d r)).2.2.1
    rw [fromUnicode]
    rw [show findHexRun ('U' :: '+' :: d :: r) =
        if isHexDigitCI d then some ((d :: r).takeWhile isHexDigitCI)
        else findHexRun ('+' :: d :: r) from rfl]
    rw [if_pos hdhex,
      takeWhile_eq_self_of_all _ _ (fun x hx => (hfacts x hx).2.2.1)]
    have hfold : (d :: r).foldl (fun a ch => 16 * a + hexValCI ch) 0 = c.toNat := by
      rw [← hD]
      exact padHex_foldl c.toNat hbmp
    simp only [hfold]
    have hvalid : c.toNat < 0xD800 ∨ (0xDFFF < c.toNat ∧ c.toNat < 0x110000) := by
      have h := c.valid
      rw [UInt32.isValidChar, Nat.isValidChar] at h
      exact h
    rw [if_pos hvalid, Char.ofNat_toNat]

/-! ### The weave parse -/

theorem weave_single (e : List Char) (gs : List (List Char)) :
    weave [e] gs = e := by
  cases gs <;> rfl

theorem weave_cons (e : List Char) (es : List (List Char)) (hes : es ≠ [])
    (gs : List (List Char)) :
    weave (e :: es) gs = e ++ (gs.headD [] ++ weave es gs.tail) := by
  cases es with
  | nil => exact absurd rfl hes
  | cons m ms =>
    cases gs with
    | nil => simp [weave]
    | cons g gs' => simp [weave]

theorem headD_gap_free (gaps : List (List Char)) (hg : ∀ g ∈ gaps, '&' ∉ g) :
    '&' ∉ gaps.headD [] := by
  cases gaps with
  | nil => simp
  | cons g gs => exact hg g (List.mem_cons_self g gs)

theorem tail_gap_free (gaps : List (List Char)) (hg : ∀ g ∈ gaps, '&' ∉ g) :
    ∀ g ∈ gaps.tail, '&' ∉ g := by
  cases gaps with
  | nil => simp
  | cons g gs => exact fun x hx => hg x (List.mem_cons_of_mem g hx)

theorem gapThenF0Req_skip_entity (b : Nat) (g : List Char) (hg : '&' ∉ g)
    (ch : Char) (h1 : 16 ≤ ch.toNat) (h2 : ch.toNat < 256) (hb : ch.toNat = b)
    (rest : List Char) :
    gapThenF0Req b (g ++ (puaEntity ch ++ rest)) = some rest := by
  rw [show gapThenF0Req b (g ++ (puaEntity ch ++ rest)) =
      (match gapThenF0 (g ++ (puaEntity ch ++ rest)) with
       | some (b', r) => if b' = b then some r else none
       | none => none) from rfl]
  rw [gapThenF0_skip_entity g hg ch h1 h2 rest]
  dsimp only
  rw [if_pos hb]

/-- The full marker regex matches the woven marker of a basic-plane
character and consumes exactly it, yielding the eight entity bytes. -/
theorem tryMarkerMatch_weave (c : Char) (hbmp : c.toNat < 65536)
    (gaps : List (List Char)) (hg : ∀ g ∈ gaps, '&' ∉ g) (s' : List Char) :
    tryMarkerMatch (weave (markerEntities c) gaps ++ s') =
      some ([91, 85, 43] ++
        (padStart 4 '0' (toHexUpper c.toNat)).map Char.toNat ++ [93], s') := by
  have hlen := padHex_length c.toNat hbmp
  rcases hD : padStart 4 '0' (toHexUpper c.toNat) with _ | ⟨e1, r1⟩
  · rw [hD] at hlen; simp at hlen
  rcases r1 with _ | ⟨e2, r2⟩
  · rw [hD] at hlen; simp at hlen
  rcases r2 with _ | ⟨e3, r3⟩
  · rw [hD] at hlen; simp at hlen
  rcases r3 with _ | ⟨e4, r4⟩
  · rw [hD] at hlen; simp at hlen
  have hr4 : r4 = [] := by
    rw [hD] at hlen; simp at hlen
    exact hlen
  subst hr4
  have hfacts := mem_padHex_facts c.toNat
  rw [hD] at hfacts
  have hf1 := hfacts e1 (by simp)
  have hf2 := hfacts e2 (by simp)
  have hf3 := hfacts e3 (by simp)
  have hf4 := hfacts e4 (by simp)
  have hME : markerEntities c =
      [puaEntity '[', puaEntity 'U', puaEntity '+', puaEntity e1, puaEntity e2,
        puaEntity e3, puaEntity e4, puaEntity ']'] := by
    simp [markerEntities, getUnicode, hD]
  have hwv : weave (markerEntities c) gaps ++ s' =
      puaEntity '[' ++ (gaps.headD [] ++ (puaEntity 'U' ++
        (gaps.tail.headD [] ++ (puaEntity '+' ++
        (gaps.tail.tail.headD [] ++ (puaEntity e1 ++
          (gaps.tail.tail.tail.headD [] ++
          (puaEntity e2 ++ (gaps.tail.tail.tail.tail.headD [] ++ (puaEntity e3 ++
            (gaps.tail.tail.tail.tail.tail.headD [] ++ (puaEntity e4 ++
              (gaps.tail.tail.tail.tail.tail.tail.headD [] ++
                (puaEntity ']' ++ s')))))))))))))) := by
    rw [hME]
    rw [weave_cons _ _ (by simp) gaps]
    rw [weave_cons _ _ (by simp) gaps.tail]
    rw [weave_cons _ _ (by simp) gaps.tail.tail]
    rw [weave_cons _ _ (by simp) gaps.tail.tail.tail]
    rw [weave_cons _ _ (by simp) gaps.tail.tail.tail.tail]
    rw [weave_cons _ _ (by simp) gaps.tail.tail.tail.tail.tail]
    rw [weave_cons _ _ (by simp) gaps.tail.tail.tail.tail.tail.tail]
    rw [weave_single]
    simp only [List.append_assoc]
  have hgf1 : '&' ∉ gaps.headD [] := headD_gap_free gaps hg
  have htf1 := tail_gap_free gaps hg
  have hgf2 : '&' ∉ gaps.tail.headD [] := headD_gap_free _ htf1
  have htf2 := tail_gap_free _ htf1
  have hgf3 : '&' ∉ gaps.tail.tail.headD [] := headD_gap_free _ htf2
  have htf3 := tail_gap_free _ htf2
  have hgf4 : '&' ∉ gaps.tail.tail.tail.headD [] := headD_gap_free _ htf3
  have htf4 := tail_gap_free _ htf3
  have hgf5 : '&' ∉ gaps.tail.tail.tail.tail.headD [] := headD_gap_free _ htf4
  have htf5 := tail_gap_free _ htf4
  have hgf6 : '&' ∉ gaps.tail.tail.tail.tail.tail.headD [] := headD_gap_free _ htf5
  have htf6 := tail_gap_free _ htf5
  have hgf7 : '&' ∉ gaps.tail.tail.tail.tail.tail.tail.headD [] :=
    headD_gap_free _ htf6
  rw [hwv, tryMarkerMatch]
  rw [parseF0Entity_puaEntity '[' (by decide) (by decide)]
  dsimp only
  rw [if_pos (show ('['.toNat : Nat) = 91 by decide)]
  rw [gapThenF0Req_skip_entity 85 _ hgf1 'U' (by decide) (by decide) (by decide)]
  dsimp only
  rw [gapThenF0Req_skip_entity 43 _ hgf2 '+' (by decide) (by decide) (by decide)]
  dsimp only
  rw [gapThenF0_skip_entity _ hgf3 e1 hf1.1 hf1.2.1]
  dsimp only
  rw [gapThenF0_skip_entity _ hgf4 e2 hf2.1 hf2.2.1]
  dsimp only
  rw [gapThenF0_skip_entity _ hgf5 e3 hf3.1 hf3.2.1]
  dsimp only
  rw [gapThenF0_skip_entity _ hgf6 e4 hf4.1 hf4.2.1]
  dsimp only
  rw [gapThenF0Req_skip_entity 93 _ hgf7 ']' (by decide) (by decide) (by decide)]
  simp [hD]

/-- When the marker regex matches at the head with digit bytes that decode
back to their own characters, the replacer emits the decoded character and
recurses on the remainder. -/
theorem replaceNSCM_match (c0 : Char) (t after : List Char) (d1 d2 d3 d4 : Char)
    (hm : tryMarkerMatch (c0 :: t) =
      some ([91, 85, 43, d1.toNat, d2.toNat, d3.toNat, d4.toNat, 93], after))
    (hf : ∀ ch ∈ [d1, d2, d3, d4],
      ch.toNat < 256 ∧ toUpperAscii ch = ch ∧ Char.ofNat ch.toNat = ch)
    (c : Char) (hfu : fromUnicode ['U', '+', d1, d2, d3, d4] = .ok c) :
    replaceNotSupportedCharMarkers (c0 :: t) =
      (replaceNotSupportedCharMarkers after).map (fun r => c :: r) := by
  have hlt := tryMarkerMatch_after_lt _ _ _ hm
  have hd1 := hf d1 (by simp)
  have hd2 := hf d2 (by simp)
  have hd3 := hf d3 (by simp)
  have hd4 := hf d4 (by simp)
  show replaceMarkersF (c0 :: t).length (c0 :: t) = _
  simp only [List.length_cons, replaceMarkersF, hm]
  rw [if_neg (by simp)]
  simp only [List.drop_succ_cons, List.drop_zero, List.take_succ_cons,
    List.take_zero, List.map_cons, List.map_nil]
  rw [Nat.mod_eq_of_lt hd1.1, Nat.mod_eq_of_lt hd2.1, Nat.mod_eq_of_lt hd3.1,
    Nat.mod_eq_of_lt hd4.1, hd1.2.2, hd2.2.2, hd3.2.2, hd4.2.2,
    hd1.2.1, hd2.2.1, hd3.2.1, hd4.2.1]
  rw [show ('U' :: '+' :: [d1, d2, d3, d4] : List Char) =
    ['U', '+', d1, d2, d3, d4] from rfl, hfu]
  dsimp only
  rw [show replaceNotSupportedCharMarkers after =
    replaceMarkersF after.length after from rfl]
  rw [replaceMarkersF_fuel after.length t.length after.length after le_rfl
    (by simp only [List.length_cons] at hlt; omega) le_rfl]

/-- Restoring the woven marker of a basic-plane character: the whole marker
(entities plus amp-free gaps) is consumed and replaced by the character. -/
theorem replaceNSCM_weave (c : Char) (hbmp : c.toNat < 65536)
    (gaps : List (List Char)) (hg : ∀ g ∈ gaps, '&' ∉ g) (s' : List Char) :
    replaceNotSupportedCharMarkers (weave (markerEntities c) gaps ++ s') =
      (replaceNotSupportedCharMarkers s').map (fun r => c :: r) := by
  have hm := tryMarkerMatch_weave c hbmp gaps hg s'
  have hlen := padHex_length c.toNat hbmp
  rcases hD : padStart 4 '0' (toHexUpper c.toNat) with _ | ⟨e1, r1⟩
  · rw [hD] at hlen; simp at hlen
  rcases r1 with _ | ⟨e2, r2⟩
  · rw [hD] at hlen; simp at hlen
  rcases r2 with _ | ⟨e3, r3⟩
  · rw [hD] at hlen; simp at hlen
  rcases r3 with _ | ⟨e4, r4⟩
  · rw [hD] at hlen; simp at hlen
  have hr4 : r4 = [] := by
    rw [hD] at hlen; simp at hlen
    exact hlen
  subst hr4
  have hfacts := mem_padHex_facts c.toNat
  rw [hD] at hfacts
  rw [hD] at hm
  simp only [List.map_cons, List.map_nil, List.cons_append, List.nil_append] at hm
  have hfu : fromUnicode ['U', '+', e1, e2, e3, e4] = .ok c := by
    have := fromUnicode_getUnicode c hbmp
    rw [hD] at this
    exact this
  rcases hW : weave (markerEntities c) gaps ++ s' with _ | ⟨c0, t⟩
  · rw [hW] at hm
    have hnone : tryMarkerMatch ([] : List Char) = none := by decide
    rw [hnone] at hm
    exact absurd hm (by simp)
  · rw [hW] at hm
    rw [replaceNSCM_match c0 t s' e1 e2 e3 e4 hm
      (fun ch hch => by
        have h := hfacts ch (by simpa using hch)
        exact ⟨h.2.1, h.2.2.2.1, h.2.2.2.2.1⟩)
      c hfu]

theorem jsIncludes_mid (pat a b : List Char) (hp : pat ≠ []) :
    jsIncludes pat (a ++ (pat ++ b)) = true := by
  induction a with
  | nil =>
    rcases pat with _ | ⟨p, ps⟩
    · exact absurd rfl hp
    · simp only [List.nil_append, List.cons_append, jsIncludes,
        Bool.or_eq_true, List.isPrefixOf_iff_prefix]
      exact Or.inl (by rw [List.append_eq, ← List.cons_append]
                       exact List.prefix_append _ _)
  | cons x a' ih =>
    simp only [List.cons_append, jsIncludes, Bool.or_eq_true]
    exact Or.inr ih

/-- C4: a character above the engine's native 8-bit range is reported by the
unsupported-character scan, its fallback directive renders the bracketed
code-point marker `[U+XXXX]` in its place, and marker restoration recovers
exactly the original character from the marker's private-use entities, even
when they are interleaved with amp-free gap text — amended: this holds for
basic-plane characters (code point at most 0xFFFF); an astral character
yields a five-digit marker whose nine entities the restoration regex never
matches (see the counterexample). -/
theorem c4_marker_roundtrip (c : Char) (h255 : 255 < c.toNat)
    (hbmp : c.toNat < 65536) (a : List Char) (ha : '&' ∉ a)
    (gaps : List (List Char)) (hg : ∀ g ∈ gaps, '&' ∉ g) (s' : List Char) :
    findNotSupportedChars [c] = [c] ∧
    jsIncludes ('[' :: getUnicode c ++ [']']) (newunicodecharDirective c) = true ∧
    replaceNotSupportedCharMarkers (a ++ (weave (markerEntities c) gaps ++ s')) =
      (replaceNotSupportedCharMarkers s').map (fun r => a ++ (c :: r)) := by
  refine ⟨by simp [findNotSupportedChars, h255], ?_, ?_⟩
  · have hsh : newunicodecharDirective c =
        ("\\newunicodechar\x7b".toList ++ [c] ++ "\x7d\x7b\\rlap\x7b".toList) ++
          (('[' :: getUnicode c ++ [']']) ++ "\x7d\\phantom\x7bxx\x7d\x7d\n".toList) := by
      simp [newunicodecharDirective]
    rw [hsh]
    exact jsIncludes_mid _ _ _ (by simp)
  · rw [replaceNSCM_skip a _ ha, replaceNSCM_weave c hbmp gaps hg s']
    cases h : replaceNotSupportedCharMarkers s' <;> simp [Except.map]

theorem c4_marker_roundtrip_witness :
    (255 < '中'.toNat ∧ '中'.toNat < 65536 ∧ '&' ∉ "<p>".toList ∧
      (∀ g ∈ [['x'], ([] : List Char)], '&' ∉ g)) ∧
    (findNotSupportedChars ['中'] = ['中'] ∧
      jsIncludes ('[' :: getUnicode '中' ++ [']'])
        (newunicodecharDirective '中') = true ∧
      replaceNotSupportedCharMarkers
          ("<p>".toList ++ (weave (markerEntities '中') [['x'], []] ++ "!".toList)) =
        (replaceNotSupportedCharMarkers "!".toList).map
          (fun r => "<p>".toList ++ ('中' :: r))) :=
  ⟨⟨by decide, by decide, by decide, by decide⟩,
    c4_marker_roundtrip '中' (by decide) (by decide) "<p>".toList (by decide)
      [['x'], []] (by decide) "!".toList⟩

/-- C4 counterexample: for the astral character 😀 (code point 0x1F600,
above the 8-bit range, hence within the claim's scope) the synthesized
marker has five hex digits and nine entities; the restoration regex, which
matches exactly four digit entities, never fires, so the marker survives
unchanged and the original character is not recovered. -/
theorem c4_counterexample :
    255 < '😀'.toNat ∧
    replaceNotSupportedCharMarkers (weave (markerEntities '😀') []) =
      .ok (weave (markerEntities '😀') []) ∧
    '😀' ∉ weave (markerEntities '😀') [] := by decide

/-! ### Id namespacing (`process`, lines 109-120)

`html.match(/\bid="pgf[^"]*"/g)` collects the internal id tokens, they are
sorted longest-to-shortest (JS `sort` is stable), and for each token the
un-namespaced id `pgf` + idString is rewritten by `replaceAll` to
`pgf` + sourceHash + idString.
`String.prototype.replaceAll` with a string replacement performs
`GetSubstitution`: `$$`, `$&`, `$` + backtick and `$` + apostrophe are
substitution patterns, expanded against the subject the match was found in. -/

/-- The `\b` test of the scan regex before the word character `i`: true at
the string start or after a non-word character. -/
def boundaryOk : Option Char → Bool
  | none => true
  | some c => !isWordChar c

/-- The global scan `html.match(/\bid="pgf[^"]*"/g)` (line 109): leftmost,
non-overlapping matches; each match is `id="pgf`, a greedy run of
non-quote characters, and the closing quote. -/
def scanIdsF : Nat → Option Char → List Char → List (List Char)
  | 0, _, _ => []
  | _ + 1, _, [] => []
  | fuel + 1, prev, c :: s =>
    if boundaryOk prev && "id=\"pgf".toList.isPrefixOf (c :: s) then
      let rest := (c :: s).drop 7
      let content := rest.takeWhile (fun x => x ≠ '"')
      if content.length < rest.length then
        ("id=\"pgf".toList ++ content ++ ['"']) ::
          scanIdsF fuel (some '"') (rest.drop (content.length + 1))
      else scanIdsF fuel (some c) s
    else scanIdsF fuel (some c) s

def scanIds (s : List Char) : List (List Char) := scanIdsF s.length none s

/-- One step of the stable insertion sort realising
`ids.sort((a, b) => b.length - a.length)` (lines 112-114): insert before
the first element that is not longer. -/
def insertByLen (x : List Char) : List (List Char) → List (List Char)
  | [] => [x]
  | y :: ys => if y.length ≤ x.length then x :: y :: ys else y :: insertByLen x ys

def sortByLenDesc : List (List Char) → List (List Char)
  | [] => []
  | x :: xs => insertByLen x (sortByLenDesc xs)

/-- A match of `/id="pgf(.*)"/` at the head of `s`: `id="pgf`, then the
greedy dot (which excludes newlines) backtracking to the last quote of the
line, capturing everything before it. -/
def idCapAt (s : List Char) : Option (List Char × List Char) :=
  if "id=\"pgf".toList.isPrefixOf s then
    let rest := s.drop 7
    let seg := rest.takeWhile (fun c => c ≠ '\n')
    let tailpart := seg.reverse.takeWhile (fun c => c ≠ '"')
    if tailpart.length < seg.length then
      let j := seg.length - tailpart.length - 1
      some (seg.take j, rest.drop (j + 1))
    else none
  else none

/-- `id.replace(/id="pgf(.*)"/, \x27$1\x27)` (line 116): the first match is
replaced by its capture, the rest of the string is kept. -/
def replaceIdCaptureF : Nat → List Char → List Char
  | 0, s => s
  | _ + 1, [] => []
  | fuel + 1, c :: s =>
    match idCapAt (c :: s) with
    | some (cap, suffix) => cap ++ suffix
    | none => c :: replaceIdCaptureF fuel s

def pgfIdStringOf (t : List Char) : List Char := replaceIdCaptureF t.length t

/-- `GetSubstitution` for a string pattern (no capture groups): expand
`$$`, `$&` (the matched text), `$` + backtick (the subject before the
match) and `$` + apostrophe (the subject after the match); any other `$`
is literal. -/
def getSubstitutionF : Nat → List Char → List Char → List Char → List Char → List Char
  | 0, _, _, _, _ => []
  | _ + 1, [], _, _, _ => []
  | fuel + 1, c :: rest, matched, before, after =>
    if c = '$' then
      match rest with
      | [] => ['$']
      | d :: rest' =>
        if d = '$' then '$' :: getSubstitutionF fuel rest' matched before after
        else if d = '&' then matched ++ getSubstitutionF fuel rest' matched before after
        else if d = Char.ofNat 96 then
          before ++ getSubstitutionF fuel rest' matched before after
        else if d = Char.ofNat 39 then
          after ++ getSubstitutionF fuel rest' matched before after
        else '$' :: getSubstitutionF fuel rest matched before after
    else c :: getSubstitutionF fuel rest matched before after

/-- `String.prototype.replaceAll` with a string pattern and a string
replacement (line 117): leftmost non-overlapping occurrences of `pat`,
each replaced by the `GetSubstitution` expansion of `template` computed
against the original subject. -/
def jsReplaceAllF (pat template subject : List Char) : Nat → Nat → List Char → List Char
  | 0, _, s => s
  | _ + 1, _, [] => []
  | fuel + 1, pos, c :: s =>
    if pat.isPrefixOf (c :: s) then
      getSubstitutionF template.length template pat (subject.take pos)
          (subject.drop (pos + pat.length)) ++
        jsReplaceAllF pat template subject fuel (pos + pat.length)
          ((c :: s).drop pat.length)
    else c :: jsReplaceAllF pat template subject fuel (pos + 1) s

def jsReplaceAll (pat template s : List Char) : List Char :=
  jsReplaceAllF pat template s s.length 0 s

/-- The id-namespacing pass of `process` (lines 109-120): scan for id
tokens; if any, sort longest-to-shortest and, for each, globally replace
`pgf` + idString by `pgf` + sourceHash + idString. -/
def namespaceIds (hash : List Char) (html : List Char) : List Char :=
  let ids := scanIds html
  if ids.isEmpty then html
  else
    (sortByLenDesc ids).foldl
      (fun h tok =>
        let pgfIdString := pgfIdStringOf tok
        jsReplaceAll ("pgf".toList ++ pgfIdString)
          ("pgf".toList ++ hash ++ pgfIdString) h)
      html

/-- Raw engine markup whose first id token contains the two characters
`$` + apostrophe, followed by a second planted occurrence of that token's
un-namespaced id whose replacement clones the tail of the subject. -/
def c2Html : List Char :=
  "id=\"pgfA$".toList ++ [Char.ofNat 39] ++ "i\"pgfA$".toList ++ [Char.ofNat 39] ++
    "id=\"pgf.id=\"pgfV\"".toList

/-- C2: refuted as stated — the namespacing pass does not guarantee
collision-free ids. Because `replaceAll` expands `$`-substitution patterns
in its string replacement, an id content containing `$` + apostrophe makes
each replacement clone the un-rewritten tail of the subject; on `c2Html`
both elements, despite distinct 40-character lowercase-hexadecimal source
hashes, expose the identical un-namespaced token `id="pgfV"` — a colliding
id embedding neither hash. -/
theorem c2_namespacing_collision :
    (List.replicate 40 'a' : List Char) ≠ List.replicate 40 'b' ∧
    (∀ c ∈ (List.replicate 40 'a' : List Char), isHexLower c = true) ∧
    (∀ c ∈ (List.replicate 40 'b' : List Char), isHexLower c = true) ∧
    (scanIds c2Html).length = 2 ∧
    "id=\"pgfV\"".toList ∈ scanIds (namespaceIds (List.replicate 40 'a') c2Html) ∧
    "id=\"pgfV\"".toList ∈ scanIds (namespaceIds (List.replicate 40 'b') c2Html) ∧
    jsIncludes (List.replicate 40 'a') "id=\"pgfV\"".toList = false ∧
    jsIncludes (List.replicate 40 'b') "id=\"pgfV\"".toList = false := by
  decide

/-- The marker whose restoration completes a second, initially broken
marker: the full marker of `&` followed by the tail of a marker for
U+1234 that lacks its leading ampersand. -/
def c9Marker : List Char :=
  weave (markerEntities (Char.ofNat 38)) [] ++
    "#xf05b;&#xf055;&#xf02b;&#xf031;&#xf032;&#xf033;&#xf034;&#xf05d;".toList

/-- C9 counterexample: none of the three post-processing steps is
idempotent. Namespacing a namespaced output re-matches the rewritten id
and inserts the hash a second time; restoring `c9Marker` yields text that
a second restoration turns into U+1234; composing markup whose body spells
a close tag across fragments yields new containers for a second pass. -/
theorem c9_counterexample :
    namespaceIds (List.replicate 40 'a')
        (namespaceIds (List.replicate 40 'a') "id=\"pgfq\"".toList) ≠
      namespaceIds (List.replicate 40 'a') "id=\"pgfq\"".toList ∧
    ((replaceNotSupportedCharMarkers c9Marker).bind
        replaceNotSupportedCharMarkers) ≠ replaceNotSupportedCharMarkers c9Marker ∧
    composeToSVG (composeToSVG "<svg a>x</sv</svg><svg b>g>y</svg>".toList) ≠
      composeToSVG "<svg a>x</sv</svg><svg b>g>y</svg>".toList := by
  decide

end TikzJax
